import Mathlib

/-!
Verification of the CSP backtracking solver in `src/main.py`.

The solver is embedded shallowly:

* Python dicts (`assignment`, `domains`) become insertion-ordered association
  lists with unique keys; `d[k] = v` overwrites in place or appends, `del d[k]`
  removes the entry (raising `KeyError` when absent), `d.get(k)` is a total
  read, and a plain `d[k]` read raises `KeyError` when absent.
* The `neighbors` defaultdict becomes an association list together with a read
  operation `ddGet` that inserts an empty entry when the key is absent, exactly
  as `collections.defaultdict(list)` does; this state is threaded through the
  search because reads during `solve()` can grow the underlying dict.
* Exceptions (`KeyError`, `ValueError` from `max([])`) become `Except String`.
  The recursion is driven by fuel `len(variables) + 1`, which is exactly the
  depth the Python recursion can reach, since every recursive call enlarges the
  assignment by one freshly selected variable.
* Python's `sorted(xs, key=f)` computes the keys in list order and then stably
  sorts; it is modelled by computing the key list (which can raise and can
  mutate state, in source order) followed by a stable insertion sort, which
  agrees with every stable sort for the same key order.
* A constraint is the pair of its variable tuple and its predicate; the
  predicate takes the list of values of the tuple variables in tuple order.
-/

/-- A Python dict with string keys: insertion-ordered association list. -/
abbrev Dict (β : Type) : Type := List (String × β)

/-- The assignment dict mapping variable names to chosen values. -/
abbrev Assignment : Type := Dict Int

/-- Total dict read, Python `d.get(k, None)`: first entry with the key. -/
def dictGet? {β : Type} : Dict β → String → Option β
  | [], _ => none
  | (k', v') :: rest, k => if k' = k then some v' else dictGet? rest k

/-- Python `k in d`. -/
def containsKey {β : Type} (d : Dict β) (k : String) : Bool :=
  (dictGet? d k).isSome

/-- Python `d[k] = v`: overwrite in place when the key is present, else append. -/
def dictSet {β : Type} : Dict β → String → β → Dict β
  | [], k, v => [(k, v)]
  | (k', v') :: rest, k, v =>
    if k' = k then (k', v) :: rest else (k', v') :: dictSet rest k v

/-- Removal of the first entry holding key `k`. -/
def removeKey {β : Type} : Dict β → String → Dict β
  | [], _ => []
  | (k', v') :: rest, k => if k' = k then rest else (k', v') :: removeKey rest k

/-- Python `del d[k]`: `KeyError` when the key is absent. -/
def dictDel {β : Type} (d : Dict β) (k : String) : Except String (Dict β) :=
  if containsKey d k then .ok (removeKey d k) else .error "KeyError"

/-- Python `d[k]` read on a plain dict: `KeyError` when the key is absent. -/
def dictGetE {β : Type} (d : Dict β) (k : String) : Except String β :=
  match dictGet? d k with
  | some v => .ok v
  | none => .error "KeyError"

/-- The key list of a dict. -/
def keys {β : Type} (d : Dict β) : List String := d.map Prod.fst

/-- A CSP instance as accepted by `CSP.__init__`: the ordered variable list,
the per-variable domain dict, and the ordered constraint list. -/
structure CSP where
  vars : List String
  domains : Dict (List Int)
  constraints : List (List String × (List Int → Bool))

/-- The `neighbors` defaultdict state. -/
abbrev NbrDict : Type := Dict (List String)

/-- Read of `self.neighbors[k]`: a `defaultdict(list)` returns the stored list,
first inserting a fresh empty entry when the key is absent. -/
def ddGet (n : NbrDict) (k : String) : List String × NbrDict :=
  match dictGet? n k with
  | some v => (v, n)
  | none => ([], n ++ [(k, [])])

/-- `self.neighbors[k].extend(vs)`: read (possibly inserting) then append. -/
def ddExtend (n : NbrDict) (k : String) (vs : List String) : NbrDict :=
  let p := ddGet n k
  dictSet p.2 k (p.1 ++ vs)

/-- `_create_constraint_graph`: for every constraint and every variable of its
tuple, extend the variable's neighbor list with the other tuple entries. -/
def create_constraint_graph (cs : List (List String × (List Int → Bool))) : NbrDict :=
  cs.foldl
    (fun acc c =>
      c.1.foldl (fun acc2 var => ddExtend acc2 var (c.1.filter (fun v => v != var))) acc)
    []

/-- The neighbor list the defaultdict yields for `k`: stored list or `[]`. -/
def nbrFun (n : NbrDict) (k : String) : List String :=
  (dictGet? n k).getD []

/-- One constraint test inside `_is_assignment_valid`: the values of the tuple
variables are gathered with `get`; the constraint is violated when none is
missing and the predicate is false on them. -/
def constraintViolated (t : Assignment) (c : List String × (List Int → Bool)) : Bool :=
  let values := c.1.map (fun v => dictGet? t v)
  values.all Option.isSome && !(c.2 (values.map (fun o => o.getD 0)))

/-- `_is_assignment_valid`: tentatively set `x := val`, test every constraint
whose tuple contains `x`, delete the tentative entry again, and return the
verdict together with the dict state the caller observes afterwards. -/
def is_assignment_valid (csp : CSP) (x : String) (val : Int) (a : Assignment) :
    Bool × Assignment :=
  let t := dictSet a x val
  if csp.constraints.any (fun c => c.1.contains x && constraintViolated t c)
  then (false, removeKey t x)
  else (true, removeKey t x)

/-- Stable insertion of `x` into a list already sorted by `key`: `x` goes in
front of the first element whose key is not smaller. -/
def insertByKey {α : Type} (key : α → Nat) (x : α) : List α → List α
  | [] => [x]
  | y :: ys => if key x ≤ key y then x :: y :: ys else y :: insertByKey key x ys

/-- Stable sort by a `Nat` key; Python's `sorted(xs, key=...)` is stable, and a
stable sort for a fixed key order is unique, so this is the same output. -/
def sortByKey {α : Type} (key : α → Nat) : List α → List α
  | [] => []
  | x :: xs => insertByKey key x (sortByKey key xs)

/-- The key computations of `sorted(unassigned, key=lambda v: len(self.domains[v]))`,
performed in list order; `self.domains[v]` can raise `KeyError`. -/
def domLenKeys (csp : CSP) : List String → Except String (List (String × Nat))
  | [] => .ok []
  | v :: vs =>
    match dictGetE csp.domains v with
    | .error e => .error e
    | .ok d =>
      match domLenKeys csp vs with
      | .error e => .error e
      | .ok rest => .ok ((v, d.length) :: rest)

/-- The running-maximum loop of `max(min_domain_vars, key=lambda v: len(self.neighbors[v]))`:
Python's `max` keeps the first element whose key is maximal, and each key read
goes through the defaultdict. -/
def maxByDegreeGo (n : NbrDict) (best : String) (bestDeg : Nat) :
    List String → String × NbrDict
  | [] => (best, n)
  | y :: ys =>
    let p := ddGet n y
    if p.1.length > bestDeg then maxByDegreeGo p.2 y p.1.length ys
    else maxByDegreeGo p.2 best bestDeg ys

/-- `_select_next_variable`: stable-sort the unassigned variables by domain
size, then take the first maximum of neighbor-list length over the whole
sorted list; `max` of an empty sequence raises `ValueError`. -/
def select_next_variable (csp : CSP) (n : NbrDict) (a : Assignment) :
    Except String (String × NbrDict) :=
  let unassigned := csp.vars.filter (fun v => !containsKey a v)
  match domLenKeys csp unassigned with
  | .error e => .error e
  | .ok ks =>
    match (sortByKey (fun p => p.2) ks).map Prod.fst with
    | [] => .error "ValueError"
    | x :: rest =>
      let p := ddGet n x
      .ok (maxByDegreeGo p.2 x p.1.length rest)

/-- The inner `sum(not self._is_assignment_valid(neighbor, val, assignment) for val ...)`
of `count_conflicts`, threading the dict state through the validity calls. -/
def sumConflicts (csp : CSP) (nb : String) : Assignment → List Int → Nat × Assignment
  | t, [] => (0, t)
  | t, w :: ws =>
    let r := is_assignment_valid csp nb w t
    let rest := sumConflicts csp nb r.2 ws
    ((if r.1 then 0 else 1) + rest.1, rest.2)

/-- The `for neighbor in self.neighbors[variable]` loop of `count_conflicts`:
already-assigned neighbors are skipped, `self.domains[neighbor]` can raise. -/
def conflictLoop (csp : CSP) : Assignment → Nat → List String → Except String (Nat × Assignment)
  | t, cnt, [] => .ok (cnt, t)
  | t, cnt, nb :: nbs =>
    if containsKey t nb then conflictLoop csp t cnt nbs
    else
      match dictGetE csp.domains nb with
      | .error e => .error e
      | .ok d =>
        let r := sumConflicts csp nb t d
        conflictLoop csp r.2 (cnt + r.1) nbs

/-- `count_conflicts(value)` from `_order_values_by_least_conflicts`: set the
tentative value, total the rejected neighbor values, delete the tentative
entry, returning the count with the resulting dict and defaultdict states. -/
def count_conflicts (csp : CSP) (x : String) (val : Int) (n : NbrDict) (a : Assignment) :
    Except String (Nat × Assignment × NbrDict) :=
  let t := dictSet a x val
  let p := ddGet n x
  match conflictLoop csp t 0 p.1 with
  | .error e => .error e
  | .ok r =>
    match dictDel r.2 x with
    | .error e => .error e
    | .ok t' => .ok (r.1, t', p.2)

/-- The key computations of `sorted(self.domains[variable], key=count_conflicts)`,
one `count_conflicts` call per domain value in domain order. -/
def conflictKeys (csp : CSP) (x : String) :
    List Int → NbrDict → Assignment → Except String (List (Int × Nat) × Assignment × NbrDict)
  | [], n, a => .ok ([], a, n)
  | val :: vs, n, a =>
    match count_conflicts csp x val n a with
    | .error e => .error e
    | .ok r =>
      match conflictKeys csp x vs r.2.2 r.2.1 with
      | .error e => .error e
      | .ok r2 => .ok ((val, r.1) :: r2.1, r2.2)

/-- `_order_values_by_least_conflicts`: domain values stably sorted ascending
by their projected conflict count. -/
def order_values_by_least_conflicts (csp : CSP) (x : String) (n : NbrDict) (a : Assignment) :
    Except String (List Int × Assignment × NbrDict) :=
  match dictGetE csp.domains x with
  | .error e => .error e
  | .ok d =>
    match conflictKeys csp x d n a with
    | .error e => .error e
    | .ok r => .ok ((sortByKey (fun p => p.2) r.1).map Prod.fst, r.2)

/-- The `for value in self._order_values_by_least_conflicts(...)` loop of
`_recursive_backtracking`, with `recur` the recursive call at the next depth.
A recursion result is propagated when it is truthy (a non-empty dict); on a
falsy result the committed entry is deleted and the next value is tried. -/
def tryValues (csp : CSP)
    (recur : NbrDict → Assignment → Except String (Option Assignment × Assignment × NbrDict))
    (x : String) :
    NbrDict → Assignment → List Int → Except String (Option Assignment × Assignment × NbrDict)
  | n, a, [] => .ok (none, a, n)
  | n, a, val :: rest =>
    let r := is_assignment_valid csp x val a
    if r.1 then
      match recur n (dictSet r.2 x val) with
      | .error e => .error e
      | .ok (some sol, s, n₁) =>
        if sol.isEmpty then
          match dictDel s x with
          | .error e => .error e
          | .ok s₁ => tryValues csp recur x n₁ s₁ rest
        else .ok (some sol, s, n₁)
      | .ok (none, s, n₁) =>
        match dictDel s x with
        | .error e => .error e
        | .ok s₁ => tryValues csp recur x n₁ s₁ rest
    else tryValues csp recur x n r.2 rest

/-- `_recursive_backtracking`: a result is the Python return value paired with
the dict and defaultdict states when the call returns (the returned solution
is the very assignment object, hence the state equals the solution then). -/
def recursive_backtracking (csp : CSP) :
    Nat → NbrDict → Assignment → Except String (Option Assignment × Assignment × NbrDict)
  | 0, _, _ => .error "fuel"
  | fuel + 1, n, a =>
    if a.length = csp.vars.length then .ok (some a, a, n)
    else
      match select_next_variable csp n a with
      | .error e => .error e
      | .ok (x, n₁) =>
        match order_values_by_least_conflicts csp x n₁ a with
        | .error e => .error e
        | .ok (vals, a₁, n₂) => tryValues csp (recursive_backtracking csp fuel) x n₂ a₁ vals

/-- `solve` together with the final dict and defaultdict states. -/
def runSolve (csp : CSP) : Except String (Option Assignment × Assignment × NbrDict) :=
  recursive_backtracking csp (csp.vars.length + 1)
    (create_constraint_graph csp.constraints) []

/-- `solve`: backtracking search from the empty assignment; `none` is the
"no solution" result, `error` an escaped Python exception. -/
def solve (csp : CSP) : Except String (Option Assignment) :=
  match runSolve csp with
  | .error e => .error e
  | .ok r => .ok r.1

/-! ### Dictionary lemmas -/

theorem dictGet?_dictSet_self {β : Type} (d : Dict β) (k : String) (v : β) :
    dictGet? (dictSet d k v) k = some v := by
  induction d with
  | nil => simp [dictSet, dictGet?]
  | cons p rest ih =>
    obtain ⟨k', v'⟩ := p
    by_cases h : k' = k <;> simp [dictSet, dictGet?, h, ih]

theorem dictGet?_dictSet_ne {β : Type} (d : Dict β) (k j : String) (v : β) (hjk : j ≠ k) :
    dictGet? (dictSet d k v) j = dictGet? d j := by
  induction d with
  | nil => simp [dictSet, dictGet?, Ne.symm hjk]
  | cons p rest ih =>
    obtain ⟨k', v'⟩ := p
    by_cases h : k' = k
    · subst h
      simp [dictSet, dictGet?, Ne.symm hjk]
    · by_cases h2 : k' = j <;> simp [dictSet, dictGet?, h, h2, Ne.symm hjk, hjk, ih]

theorem containsKey_dictSet_self {β : Type} (d : Dict β) (k : String) (v : β) :
    containsKey (dictSet d k v) k = true := by
  simp [containsKey, dictGet?_dictSet_self]

theorem removeKey_dictSet_of_not_contains {β : Type} (d : Dict β) (k : String) (v : β)
    (h : containsKey d k = false) : removeKey (dictSet d k v) k = d := by
  induction d with
  | nil => simp [dictSet, removeKey]
  | cons p rest ih =>
    obtain ⟨k', v'⟩ := p
    simp only [containsKey, dictGet?] at h
    by_cases hk : k' = k
    · simp [hk] at h
    · simp only [dictGet?, hk, if_false] at h ⊢
      simp [dictSet, removeKey, hk, ih (by simpa [containsKey] using h)]

theorem length_dictSet_of_not_contains {β : Type} (d : Dict β) (k : String) (v : β)
    (h : containsKey d k = false) : (dictSet d k v).length = d.length + 1 := by
  induction d with
  | nil => simp [dictSet]
  | cons p rest ih =>
    obtain ⟨k', v'⟩ := p
    simp only [containsKey, dictGet?] at h
    by_cases hk : k' = k
    · simp [hk] at h
    · simp only [hk, if_false] at h
      simp [dictSet, hk, ih (by simpa [containsKey] using h)]

theorem mem_keys_iff_contains {β : Type} (d : Dict β) (k : String) :
    k ∈ keys d ↔ containsKey d k = true := by
  induction d with
  | nil => simp [keys, containsKey, dictGet?]
  | cons p rest ih =>
    obtain ⟨k', v'⟩ := p
    by_cases h : k' = k
    · simp [keys, containsKey, dictGet?, h]
    · simpa [keys, containsKey, dictGet?, h, Ne.symm h] using ih

theorem keys_dictSet {β : Type} (d : Dict β) (k : String) (v : β) :
    ∀ j ∈ keys (dictSet d k v), j = k ∨ j ∈ keys d := by
  induction d with
  | nil => simp [dictSet, keys]
  | cons p rest ih =>
    obtain ⟨k', v'⟩ := p
    intro j hj
    by_cases h : k' = k
    · subst h
      simp [dictSet, keys] at hj
      simp only [keys, List.map_cons, List.mem_cons]
      rcases hj with hj | ⟨w, hw⟩
      · exact Or.inl hj
      · exact Or.inr (Or.inr (List.mem_map_of_mem Prod.fst hw))
    · simp only [dictSet, if_neg h] at hj
      simp only [keys, List.map_cons, List.mem_cons] at hj ⊢
      rcases hj with hj | hj
      · tauto
      · rcases ih j (by simpa [keys] using hj) with h1 | h1
        · exact Or.inl h1
        · simp only [keys] at h1
          tauto

theorem keys_dictSet_of_not_contains {β : Type} (d : Dict β) (k : String) (v : β)
    (h : containsKey d k = false) : keys (dictSet d k v) = keys d ++ [k] := by
  induction d with
  | nil => simp [dictSet, keys]
  | cons p rest ih =>
    obtain ⟨k', v'⟩ := p
    simp only [containsKey, dictGet?] at h
    by_cases hk : k' = k
    · simp [hk] at h
    · simp only [hk, if_false] at h
      have := ih (by simpa [containsKey] using h)
      simp only [keys, List.map_cons] at this ⊢
      simp [dictSet, hk, this]

theorem keys_dictSet_of_contains {β : Type} (d : Dict β) (k : String) (v : β)
    (h : containsKey d k = true) : keys (dictSet d k v) = keys d := by
  induction d with
  | nil => simp [containsKey, dictGet?] at h
  | cons p rest ih =>
    obtain ⟨k', v'⟩ := p
    by_cases hk : k' = k
    · simp [dictSet, keys, hk]
    · simp only [containsKey, dictGet?, hk, if_false] at h
      have := ih (by simpa [containsKey] using h)
      simp only [keys, List.map_cons] at this ⊢
      simp [dictSet, hk, this]

theorem nodup_keys_dictSet {β : Type} (d : Dict β) (k : String) (v : β)
    (h : (keys d).Nodup) : (keys (dictSet d k v)).Nodup := by
  by_cases hc : containsKey d k
  · rw [keys_dictSet_of_contains d k v hc]; exact h
  · rw [keys_dictSet_of_not_contains d k v (by simpa using hc)]
    have hk : k ∉ keys d := by
      rw [mem_keys_iff_contains]; simpa using hc
    simp [List.nodup_append, h, hk]

theorem dictGet?_mem {β : Type} (d : Dict β) (k : String) (v : β)
    (h : dictGet? d k = some v) : (k, v) ∈ d := by
  induction d with
  | nil => simp [dictGet?] at h
  | cons p rest ih =>
    obtain ⟨k', v'⟩ := p
    by_cases hk : k' = k
    · subst hk
      have hv : v' = v := by simpa [dictGet?] using h
      subst hv
      exact List.mem_cons_self _ _
    · simp only [dictGet?, hk, if_false] at h
      exact List.mem_cons_of_mem _ (ih h)

theorem contains_of_mem_keys {β : Type} {d : Dict β} {k : String}
    (h : k ∈ keys d) : containsKey d k = true :=
  (mem_keys_iff_contains d k).1 h

theorem dictGet?_append {β : Type} (d₁ d₂ : Dict β) (k : String) :
    dictGet? (d₁ ++ d₂) k = ((dictGet? d₁ k).or (dictGet? d₂ k)) := by
  induction d₁ with
  | nil => simp [dictGet?]
  | cons p rest ih =>
    obtain ⟨k', v'⟩ := p
    by_cases hk : k' = k <;> simp [dictGet?, hk, ih]

/-! ### Stable sort lemmas -/

theorem insertByKey_perm {α : Type} (key : α → Nat) (x : α) (l : List α) :
    (insertByKey key x l).Perm (x :: l) := by
  induction l with
  | nil => simp [insertByKey]
  | cons y ys ih =>
    by_cases h : key x ≤ key y
    · simp [insertByKey, h]
    · simp only [insertByKey, if_neg h]
      exact (List.Perm.cons y ih).trans (List.Perm.swap x y ys)

theorem sortByKey_perm {α : Type} (key : α → Nat) (l : List α) :
    (sortByKey key l).Perm l := by
  induction l with
  | nil => simp [sortByKey]
  | cons x xs ih =>
    exact ((insertByKey_perm key x (sortByKey key xs)).trans (List.Perm.cons x ih))

theorem insertByKey_sorted {α : Type} (key : α → Nat) (x : α) (l : List α)
    (h : l.Pairwise (fun p q => key p ≤ key q)) :
    (insertByKey key x l).Pairwise (fun p q => key p ≤ key q) := by
  induction l with
  | nil => simp [insertByKey]
  | cons y ys ih =>
    rcases List.pairwise_cons.1 h with ⟨hy, hys⟩
    by_cases hx : key x ≤ key y
    · simp only [insertByKey, if_pos hx]
      refine List.pairwise_cons.2 ⟨?_, h⟩
      intro z hz
      rcases List.mem_cons.1 hz with hz | hz
      · exact hz ▸ hx
      · exact le_trans hx (hy z hz)
    · simp only [insertByKey, if_neg hx]
      refine List.pairwise_cons.2 ⟨?_, ih hys⟩
      intro z hz
      have hz' : z ∈ x :: ys := (insertByKey_perm key x ys).mem_iff.1 hz
      rcases List.mem_cons.1 hz' with hz' | hz'
      · exact hz' ▸ le_of_not_le hx
      · exact hy z hz'

theorem sortByKey_sorted {α : Type} (key : α → Nat) (l : List α) :
    (sortByKey key l).Pairwise (fun p q => key p ≤ key q) := by
  induction l with
  | nil => simp [sortByKey]
  | cons x xs ih => exact insertByKey_sorted key x _ ih

theorem sortByKey_eq_self_of_const {α : Type} (key : α → Nat) (c : Nat) (l : List α)
    (h : ∀ y ∈ l, key y = c) : sortByKey key l = l := by
  induction l with
  | nil => simp [sortByKey]
  | cons x xs ih =>
    have hx : key x = c := h x (List.mem_cons_self _ _)
    have ih' := ih (fun y hy => h y (List.mem_cons_of_mem _ hy))
    rw [sortByKey, ih']
    cases xs with
    | nil => simp [insertByKey]
    | cons y ys =>
      have hy : key y = c := h y (by simp)
      simp [insertByKey, hx, hy]

/-! ### The first-maximum fold of Python's `max(..., key=...)` -/

/-- Pure version of the running maximum: first element with maximal key. -/
def maxPure {α : Type} (key : α → Nat) (best : α) : List α → α
  | [] => best
  | y :: ys => if key y > key best then maxPure key y ys else maxPure key best ys

theorem maxPure_mem {α : Type} (key : α → Nat) (best : α) (l : List α) :
    maxPure key best l ∈ best :: l := by
  induction l generalizing best with
  | nil => simp [maxPure]
  | cons y ys ih =>
    by_cases h : key y > key best
    · simp only [maxPure, if_pos h]
      have := ih y
      simp only [List.mem_cons] at this ⊢
      tauto
    · simp only [maxPure, if_neg h]
      have := ih best
      simp only [List.mem_cons] at this ⊢
      tauto

theorem maxPure_ge {α : Type} (key : α → Nat) (best : α) (l : List α) :
    ∀ z ∈ best :: l, key z ≤ key (maxPure key best l) := by
  induction l generalizing best with
  | nil => simp [maxPure]
  | cons y ys ih =>
    intro z hz
    by_cases h : key y > key best
    · simp only [maxPure, if_pos h]
      rcases List.mem_cons.1 hz with hz | hz
      · rw [hz]
        exact le_trans (le_of_lt h) (ih y y (List.mem_cons_self _ _))
      · rcases List.mem_cons.1 hz with hz | hz
        · rw [hz]
          exact ih y y (List.mem_cons_self _ _)
        · exact ih y z (List.mem_cons_of_mem _ hz)
    · simp only [maxPure, if_neg h]
      rcases List.mem_cons.1 hz with hz | hz
      · rw [hz]
        exact ih best best (List.mem_cons_self _ _)
      · rcases List.mem_cons.1 hz with hz | hz
        · rw [hz]
          exact le_trans (le_of_not_lt h) (ih best best (List.mem_cons_self _ _))
        · exact ih best z (List.mem_cons_of_mem _ hz)

theorem maxPure_split {α : Type} (key : α → Nat) (best : α) (l : List α) :
    ∃ l₁ l₂, best :: l = l₁ ++ maxPure key best l :: l₂ ∧
      ∀ z ∈ l₁, key z < key (maxPure key best l) := by
  induction l generalizing best with
  | nil => exact ⟨[], [], by simp [maxPure], by simp⟩
  | cons y ys ih =>
    by_cases h : key y > key best
    · rcases ih y with ⟨l₁, l₂, heq, hlt⟩
      refine ⟨best :: l₁, l₂, ?_, ?_⟩
      · simp only [maxPure, if_pos h, List.cons_append]
        rw [← heq]
      · intro z hz
        simp only [maxPure, if_pos h]
        rcases List.mem_cons.1 hz with hz | hz
        · subst hz
          exact lt_of_lt_of_le h (maxPure_ge key y ys y (List.mem_cons_self _ _))
        · exact hlt z hz
    · rcases ih best with ⟨l₁, l₂, heq, hlt⟩
      cases l₁ with
      | nil =>
        simp only [List.nil_append, List.cons.injEq] at heq
        refine ⟨[], y :: ys, ?_, by simp⟩
        simp only [maxPure, if_neg h, List.nil_append, List.cons.injEq]
        exact ⟨heq.1, trivial⟩
      | cons w l₁' =>
        simp only [List.cons_append, List.cons.injEq] at heq
        refine ⟨best :: y :: l₁', l₂, ?_, ?_⟩
        · simp only [maxPure, if_neg h, List.cons_append, List.cons.injEq]
          exact ⟨trivial, trivial, heq.2⟩
        · intro z hz
          simp only [maxPure, if_neg h]
          rcases List.mem_cons.1 hz with hz | hz
          · subst hz
            have hw := hlt w (List.mem_cons_self _ _)
            rwa [← heq.1] at hw
          · rcases List.mem_cons.1 hz with hz | hz
            · subst hz
              have hb := hlt w (List.mem_cons_self _ _)
              rw [← heq.1] at hb
              exact lt_of_le_of_lt (le_of_not_lt h) hb
            · exact hlt z (List.mem_cons_of_mem _ hz)

/-! ### The defaultdict as a function: reads never change what reads yield -/

/-- Two defaultdict states that yield the same list on every read. -/
def SameGraph (n₀ n : NbrDict) : Prop := ∀ k, nbrFun n k = nbrFun n₀ k

theorem sameGraph_refl (n : NbrDict) : SameGraph n n := fun _ => rfl

theorem ddGet_fst (n : NbrDict) (k : String) : (ddGet n k).1 = nbrFun n k := by
  unfold ddGet nbrFun
  cases h : dictGet? n k <;> simp [h]

theorem nbrFun_ddGet_snd (n : NbrDict) (k j : String) :
    nbrFun (ddGet n k).2 j = nbrFun n j := by
  unfold ddGet
  cases h : dictGet? n k with
  | some v => simp
  | none =>
    simp only [nbrFun, dictGet?_append]
    by_cases hj : j = k
    · subst hj
      simp [h, dictGet?]
    · cases h2 : dictGet? n j <;> simp [h2, dictGet?, Ne.symm hj]

theorem sameGraph_ddGet {n₀ n : NbrDict} (k : String) (h : SameGraph n₀ n) :
    SameGraph n₀ (ddGet n k).2 :=
  fun j => (nbrFun_ddGet_snd n k j).trans (h j)

theorem ddGet_fst_of_sameGraph {n₀ n : NbrDict} (k : String) (h : SameGraph n₀ n) :
    (ddGet n k).1 = nbrFun n₀ k := (ddGet_fst n k).trans (h k)

theorem maxByDegreeGo_eq_maxPure {n₀ : NbrDict} (l : List String) :
    ∀ (n : NbrDict) (best : String), SameGraph n₀ n →
    ∀ bd, bd = (nbrFun n₀ best).length →
      (maxByDegreeGo n best bd l).1 =
        maxPure (fun v => (nbrFun n₀ v).length) best l ∧
      SameGraph n₀ (maxByDegreeGo n best bd l).2 := by
  induction l with
  | nil => intro n best h bd hbd; exact ⟨rfl, h⟩
  | cons y ys ih =>
    intro n best h bd hbd
    have hy : (ddGet n y).1 = nbrFun n₀ y := ddGet_fst_of_sameGraph y h
    have hsg : SameGraph n₀ (ddGet n y).2 := sameGraph_ddGet y h
    by_cases hgt : (nbrFun n₀ y).length > (nbrFun n₀ best).length
    · have hrec := ih (ddGet n y).2 y hsg (nbrFun n₀ y).length rfl
      simp only [maxByDegreeGo, maxPure]
      rw [hy, hbd, if_pos hgt, if_pos hgt]
      exact ⟨hrec.1, hrec.2⟩
    · have hrec := ih (ddGet n y).2 best hsg (nbrFun n₀ best).length rfl
      simp only [maxByDegreeGo, maxPure]
      rw [hy, hbd, if_neg hgt, if_neg hgt]
      exact ⟨hrec.1, hrec.2⟩

/-! ### Facts about `_select_next_variable` -/

theorem domLenKeys_ok (csp : CSP) :
    ∀ (l : List String) (ks : List (String × Nat)),
      domLenKeys csp l = .ok ks →
      ks = l.map (fun y => (y, ((dictGet? csp.domains y).getD []).length)) := by
  intro l
  induction l with
  | nil =>
    intro ks h
    simp only [domLenKeys, Except.ok.injEq] at h
    rw [← h]
    simp
  | cons v vs ih =>
    intro ks h
    simp only [domLenKeys] at h
    cases hd : dictGetE csp.domains v with
    | error e => rw [hd] at h; exact absurd h (by simp)
    | ok d =>
      rw [hd] at h
      cases hrest : domLenKeys csp vs with
      | error e => rw [hrest] at h; exact absurd h (by simp)
      | ok rest =>
        rw [hrest] at h
        have hr := ih rest hrest
        have hdv : dictGet? csp.domains v = some d := by
          unfold dictGetE at hd
          cases h2 : dictGet? csp.domains v <;> rw [h2] at hd <;> simp_all
        simp only [Except.ok.injEq] at h
        rw [← h, hr, List.map_cons, hdv]
        simp

theorem domLenKeys_ok_of_dom (csp : CSP) :
    ∀ (l : List String), (∀ y ∈ l, containsKey csp.domains y = true) →
      domLenKeys csp l =
        .ok (l.map (fun y => (y, ((dictGet? csp.domains y).getD []).length))) := by
  intro l
  induction l with
  | nil => intro _; simp [domLenKeys]
  | cons v vs ih =>
    intro h
    have hv := h v (List.mem_cons_self _ _)
    simp only [containsKey, Option.isSome_iff_exists] at hv
    rcases hv with ⟨d, hd⟩
    simp only [domLenKeys, dictGetE, hd, ih (fun y hy => h y (List.mem_cons_of_mem _ hy))]
    simp [hd]

theorem maxPure_map {α β : Type} (key : β → Nat) (f : α → β) (b : α) (l : List α) :
    maxPure key (f b) (l.map f) = f (maxPure (fun p => key (f p)) b l) := by
  induction l generalizing b with
  | nil => simp [maxPure]
  | cons y ys ih =>
    by_cases h : key (f y) > key (f b)
    · simp only [List.map_cons, maxPure, if_pos h]
      exact ih y
    · simp only [List.map_cons, maxPure, if_neg h]
      exact ih b

/-- The unassigned-variable list of `_select_next_variable` (source line 46). -/
def unassignedVars (csp : CSP) (a : Assignment) : List String :=
  csp.vars.filter (fun v => !containsKey a v)

/-- The remaining-domain size used by the MRV key, `len(self.domains[v])`. -/
def domLen (csp : CSP) (y : String) : Nat :=
  ((dictGet? csp.domains y).getD []).length

theorem select_ok_spec (csp : CSP) (n : NbrDict) (a : Assignment) (x : String) (n' : NbrDict)
    (h : select_next_variable csp n a = .ok (x, n')) :
    x ∈ unassignedVars csp a ∧ SameGraph n n' ∧
      (∀ y ∈ unassignedVars csp a, (nbrFun n y).length ≤ (nbrFun n x).length) ∧
      (∀ y ∈ unassignedVars csp a, (nbrFun n y).length = (nbrFun n x).length →
        domLen csp x ≤ domLen csp y) := by
  unfold select_next_variable at h
  simp only [] at h
  split at h
  next e hks => exact absurd h (by simp)
  next ks hks =>
    have hks2 := domLenKeys_ok csp _ ks hks
    split at h
    next hss => exact absurd h (by simp)
    next x₀ rest hss =>
      rw [Except.ok.injEq] at h
      have hx : (maxByDegreeGo (ddGet n x₀).2 x₀ (ddGet n x₀).1.length rest).1 = x :=
        congrArg Prod.fst h
      have hn' : (maxByDegreeGo (ddGet n x₀).2 x₀ (ddGet n x₀).1.length rest).2 = n' :=
        congrArg Prod.snd h
      set ss := sortByKey (fun p : String × Nat => p.2) ks with hssdef
      obtain ⟨q₀, qs, hssc, hq₀, hqs⟩ :
          ∃ q₀ qs, ss = q₀ :: qs ∧ q₀.1 = x₀ ∧ qs.map Prod.fst = rest := by
        cases hc : ss with
        | nil => rw [hc] at hss; simp at hss
        | cons q₀ qs =>
          rw [hc] at hss
          simp only [List.map_cons, List.cons.injEq] at hss
          exact ⟨q₀, qs, rfl, hss.1, hss.2⟩
      have hmax := maxByDegreeGo_eq_maxPure rest (ddGet n x₀).2 x₀
        (sameGraph_ddGet x₀ (sameGraph_refl n)) (ddGet n x₀).1.length
        (by rw [ddGet_fst])
      have hxval : x = maxPure (fun v => (nbrFun n v).length) x₀ rest := by
        rw [← hx, hmax.1]
      have hsg : SameGraph n n' := by rw [← hn']; exact hmax.2
      have hRdef : maxPure (fun v => (nbrFun n v).length) x₀ rest =
          (maxPure (fun p : String × Nat => (nbrFun n p.1).length) q₀ qs).1 := by
        rw [← hq₀, ← hqs]
        exact maxPure_map (fun v => (nbrFun n v).length) Prod.fst q₀ qs
      set R := maxPure (fun p : String × Nat => (nbrFun n p.1).length) q₀ qs with hR
      have hxR : x = R.1 := by rw [hxval, hRdef]
      have hRmem : R ∈ ss := by rw [hssc]; exact maxPure_mem _ q₀ qs
      have hperm : ss.Perm ks := sortByKey_perm _ ks
      have hmemks : ∀ p, p ∈ ks ↔ p ∈ ss := fun p => (hperm.mem_iff).symm
      have hkmem : ∀ y, y ∈ unassignedVars csp a → (y, domLen csp y) ∈ ks := by
        intro y hy
        rw [hks2]
        exact List.mem_map_of_mem _ hy
      have hksmem : ∀ p, p ∈ ks → p.1 ∈ unassignedVars csp a ∧ p.2 = domLen csp p.1 := by
        intro p hp
        rw [hks2] at hp
        rcases List.mem_map.1 hp with ⟨y, hy, hyp⟩
        rw [← hyp]
        exact ⟨hy, rfl⟩
      have hge : ∀ y ∈ unassignedVars csp a, (nbrFun n y).length ≤ (nbrFun n x).length := by
        intro y hy
        have hp : (y, domLen csp y) ∈ ss := (hmemks _).1 (hkmem y hy)
        rw [hssc] at hp
        have := maxPure_ge (fun p : String × Nat => (nbrFun n p.1).length) q₀ qs _ hp
        rw [hxR]
        exact this
      have hxmem : x ∈ unassignedVars csp a := by
        have := hksmem R ((hmemks R).2 hRmem)
        rw [hxR]
        exact this.1
      refine ⟨hxmem, hsg, hge, ?_⟩
      intro y hy hdeg
      have hsorted := sortByKey_sorted (fun p : String × Nat => p.2) ks
      rcases maxPure_split (fun p : String × Nat => (nbrFun n p.1).length) q₀ qs with
        ⟨l₁, l₂, hsplit, hlt⟩
      have hssplit : ss = l₁ ++ R :: l₂ := by rw [hssc, hsplit]
      have hyp : (y, domLen csp y) ∈ ss := (hmemks _).1 (hkmem y hy)
      rw [hssplit] at hyp
      have hRval : R.2 = domLen csp x := by
        have := hksmem R ((hmemks R).2 hRmem)
        rw [hxR]
        exact this.2
      rcases List.mem_append.1 hyp with hyp | hyp
      · exfalso
        have := hlt _ hyp
        simp only at this
        rw [hdeg, ← hxR] at this
        exact lt_irrefl _ this
      · rcases List.mem_cons.1 hyp with hyp | hyp
        · have h2 : domLen csp y = R.2 := congrArg Prod.snd hyp
          rw [h2, hRval]
        · have hsorted2 : (l₁ ++ R :: l₂).Pairwise
              (fun p q : String × Nat => p.2 ≤ q.2) := by
            rw [← hssplit]
            exact hsorted
          have := (List.pairwise_append.1 hsorted2).2.1
          have hle := (List.pairwise_cons.1 this).1 _ hyp
          simp only at hle
          rw [hRval] at hle
          exact hle

theorem mem_unassignedVars {csp : CSP} {a : Assignment} {y : String} :
    y ∈ unassignedVars csp a ↔ y ∈ csp.vars ∧ containsKey a y = false := by
  unfold unassignedVars
  rw [List.mem_filter]
  simp

theorem select_ok_unassigned {csp : CSP} {n : NbrDict} {a : Assignment} {x : String}
    {n' : NbrDict} (h : select_next_variable csp n a = .ok (x, n')) :
    x ∈ csp.vars ∧ containsKey a x = false :=
  mem_unassignedVars.1 (select_ok_spec csp n a x n' h).1

theorem select_eval (csp : CSP) (n : NbrDict) (a : Assignment)
    (hdom : ∀ y ∈ unassignedVars csp a, containsKey csp.domains y = true) :
    select_next_variable csp n a =
      match (sortByKey (fun p : String × Nat => p.2)
          ((unassignedVars csp a).map
            (fun y => (y, ((dictGet? csp.domains y).getD []).length)))).map Prod.fst with
      | [] => .error "ValueError"
      | x :: rest => .ok (maxByDegreeGo (ddGet n x).2 x (ddGet n x).1.length rest) := by
  unfold select_next_variable
  simp only []
  have hu : List.filter (fun v => !containsKey a v) csp.vars = unassignedVars csp a := rfl
  rw [hu, domLenKeys_ok_of_dom csp _ hdom]

theorem select_ok_of_nonempty (csp : CSP) (n : NbrDict) (a : Assignment)
    (hne : unassignedVars csp a ≠ [])
    (hdom : ∀ y ∈ unassignedVars csp a, containsKey csp.domains y = true) :
    ∃ x n', select_next_variable csp n a = .ok (x, n') := by
  rw [select_eval csp n a hdom]
  have hlen : ((sortByKey (fun p : String × Nat => p.2)
      ((unassignedVars csp a).map
        (fun y => (y, ((dictGet? csp.domains y).getD []).length)))).map Prod.fst).length =
      (unassignedVars csp a).length := by
    rw [List.length_map, (sortByKey_perm _ _).length_eq, List.length_map]
  cases hss : (sortByKey (fun p : String × Nat => p.2)
      ((unassignedVars csp a).map
        (fun y => (y, ((dictGet? csp.domains y).getD []).length)))).map Prod.fst with
  | nil =>
    rw [hss] at hlen
    exact absurd (List.length_eq_zero.1 hlen.symm) hne
  | cons x₀ rest =>
    exact ⟨_, _, rfl⟩

/-! ### Facts about `_is_assignment_valid` -/

theorem is_assignment_valid_snd (csp : CSP) (x : String) (val : Int) (a : Assignment) :
    (is_assignment_valid csp x val a).2 = removeKey (dictSet a x val) x := by
  unfold is_assignment_valid
  simp only []
  split <;> rfl

theorem is_assignment_valid_restore (csp : CSP) (x : String) (val : Int) (a : Assignment)
    (h : containsKey a x = false) : (is_assignment_valid csp x val a).2 = a := by
  rw [is_assignment_valid_snd, removeKey_dictSet_of_not_contains a x val h]

theorem is_assignment_valid_false_iff (csp : CSP) (x : String) (val : Int) (a : Assignment) :
    (is_assignment_valid csp x val a).1 = false ↔
      ∃ c ∈ csp.constraints, x ∈ c.1 ∧
        (∀ z ∈ c.1, (dictGet? (dictSet a x val) z).isSome = true) ∧
        c.2 (c.1.map (fun z => (dictGet? (dictSet a x val) z).getD 0)) = false := by
  unfold is_assignment_valid
  simp only []
  by_cases h : csp.constraints.any
      (fun c => c.1.contains x && constraintViolated (dictSet a x val) c)
  · simp only [h, if_true]
    constructor
    · intro _
      rcases List.any_eq_true.1 h with ⟨c, hc, hcc⟩
      simp only [Bool.and_eq_true] at hcc
      obtain ⟨hmem, hviol⟩ := hcc
      unfold constraintViolated at hviol
      simp only [Bool.and_eq_true] at hviol
      obtain ⟨hall, hfalse⟩ := hviol
      refine ⟨c, hc, List.elem_iff.1 hmem, ?_, ?_⟩
      · intro z hz
        have := List.all_eq_true.1 hall _ (List.mem_map_of_mem _ hz)
        exact this
      · rw [Bool.not_eq_true'] at hfalse
        rw [← hfalse, List.map_map]
        rfl
    · intro _; trivial
  · simp only [h, if_false]
    constructor
    · intro hcontra; exact absurd hcontra (by simp)
    · rintro ⟨c, hc, hmem, hall, hfalse⟩
      exfalso
      apply h
      refine List.any_eq_true.2 ⟨c, hc, ?_⟩
      simp only [Bool.and_eq_true]
      refine ⟨List.elem_iff.2 hmem, ?_⟩
      unfold constraintViolated
      simp only [Bool.and_eq_true]
      refine ⟨?_, ?_⟩
      · refine List.all_eq_true.2 ?_
        intro o ho
        rcases List.mem_map.1 ho with ⟨z, hz, hzo⟩
        rw [← hzo]
        exact hall z hz
      · rw [Bool.not_eq_true']
        rw [List.map_map]
        exact hfalse

theorem is_assignment_valid_true_of_missing (csp : CSP) (x : String) (val : Int)
    (a : Assignment)
    (h : ∀ c ∈ csp.constraints, x ∈ c.1 →
      ∃ z ∈ c.1, dictGet? (dictSet a x val) z = none) :
    (is_assignment_valid csp x val a).1 = true := by
  rw [← Bool.not_eq_false, is_assignment_valid_false_iff]
  rintro ⟨c, hc, hmem, hall, _⟩
  rcases h c hc hmem with ⟨z, hz, hnone⟩
  have := hall z hz
  rw [hnone] at this
  exact absurd this (by simp)

/-! ### Facts about `_order_values_by_least_conflicts` -/

theorem sumConflicts_restore (csp : CSP) (nb : String) (t : Assignment) (ws : List Int)
    (h : containsKey t nb = false) : (sumConflicts csp nb t ws).2 = t := by
  induction ws with
  | nil => rfl
  | cons w ws ih =>
    simp only [sumConflicts]
    rw [is_assignment_valid_restore csp nb w t h]
    exact ih

theorem conflictLoop_ok (csp : CSP) (nbs : List String) :
    ∀ (t : Assignment) (cnt : Nat), (∀ z ∈ nbs, containsKey csp.domains z = true) →
      ∃ cnt', conflictLoop csp t cnt nbs = .ok (cnt', t) := by
  induction nbs with
  | nil => intro t cnt _; exact ⟨cnt, rfl⟩
  | cons nb nbs ih =>
    intro t cnt h
    by_cases hc : containsKey t nb
    · simp only [conflictLoop, hc, if_true]
      exact ih t cnt (fun z hz => h z (List.mem_cons_of_mem _ hz))
    · have hd := h nb (List.mem_cons_self _ _)
      simp only [containsKey, Option.isSome_iff_exists] at hd
      rcases hd with ⟨d, hd⟩
      have hrest : (sumConflicts csp nb t d).2 = t :=
        sumConflicts_restore csp nb t d (by simpa using hc)
      simp only [conflictLoop, hc, if_false, dictGetE, hd, Bool.false_eq_true]
      rw [hrest]
      exact ih t _ (fun z hz => h z (List.mem_cons_of_mem _ hz))

theorem count_conflicts_ok (csp : CSP) (x : String) (val : Int) (n : NbrDict) (a : Assignment)
    (hx : containsKey a x = false)
    (hnb : ∀ z ∈ nbrFun n x, containsKey csp.domains z = true) :
    ∃ cnt, count_conflicts csp x val n a = .ok (cnt, a, (ddGet n x).2) ∧
      (nbrFun n x = [] → cnt = 0) := by
  have hfst : (ddGet n x).1 = nbrFun n x := ddGet_fst n x
  rcases conflictLoop_ok csp (nbrFun n x) (dictSet a x val) 0 hnb with ⟨cnt, hloop⟩
  refine ⟨cnt, ?_, ?_⟩
  · unfold count_conflicts
    simp only [hfst, hloop, dictDel, containsKey_dictSet_self, if_true,
      removeKey_dictSet_of_not_contains a x val hx]
  · intro hempty
    rw [hempty] at hloop
    simp only [conflictLoop, Except.ok.injEq, Prod.mk.injEq] at hloop
    exact hloop.1.symm

theorem conflictKeys_ok (csp : CSP) (x : String) (vals : List Int) :
    ∀ (n : NbrDict) (a : Assignment), containsKey a x = false →
      (∀ z ∈ nbrFun n x, containsKey csp.domains z = true) →
      ∃ ks n', conflictKeys csp x vals n a = .ok (ks, a, n') ∧
        ks.map Prod.fst = vals ∧ SameGraph n n' ∧
        (nbrFun n x = [] → ks = vals.map (fun v => (v, 0))) := by
  induction vals with
  | nil =>
    intro n a _ _
    exact ⟨[], n, rfl, rfl, sameGraph_refl n, fun _ => rfl⟩
  | cons val vs ih =>
    intro n a hx hnb
    rcases count_conflicts_ok csp x val n a hx hnb with ⟨cnt, hcc, hcnt0⟩
    have hsg1 : SameGraph n (ddGet n x).2 := sameGraph_ddGet x (sameGraph_refl n)
    have hnb1 : ∀ z ∈ nbrFun (ddGet n x).2 x, containsKey csp.domains z = true := by
      intro z hz
      rw [hsg1 x] at hz
      exact hnb z hz
    rcases ih (ddGet n x).2 a hx hnb1 with ⟨ks, n', hck, hmap, hsg2, hzero⟩
    refine ⟨(val, cnt) :: ks, n', ?_, ?_, ?_, ?_⟩
    · simp only [conflictKeys, hcc, hck]
    · simp [hmap]
    · intro k
      rw [hsg2 k, hsg1 k]
    · intro hempty
      have hempty1 : nbrFun (ddGet n x).2 x = [] := by rw [hsg1 x]; exact hempty
      rw [List.map_cons, hcnt0 hempty, ← hzero hempty1]

theorem order_values_ok (csp : CSP) (x : String) (n : NbrDict) (a : Assignment)
    (hx : containsKey a x = false)
    (hdx : containsKey csp.domains x = true)
    (hnb : ∀ z ∈ nbrFun n x, containsKey csp.domains z = true) :
    ∃ vals n', order_values_by_least_conflicts csp x n a = .ok (vals, a, n') ∧
      vals.Perm ((dictGet? csp.domains x).getD []) ∧ SameGraph n n' ∧
      (nbrFun n x = [] → vals = (dictGet? csp.domains x).getD []) := by
  simp only [containsKey, Option.isSome_iff_exists] at hdx
  rcases hdx with ⟨d, hd⟩
  rcases conflictKeys_ok csp x d n a hx hnb with ⟨ks, n', hck, hmap, hsg, hzero⟩
  refine ⟨(sortByKey (fun p => p.2) ks).map Prod.fst, n', ?_, ?_, hsg, ?_⟩
  · unfold order_values_by_least_conflicts
    simp only [dictGetE, hd, hck]
  · rw [hd]
    have := (sortByKey_perm (fun p : Int × Nat => p.2) ks).map Prod.fst
    rw [hmap] at this
    exact this
  · intro hempty
    rw [hzero hempty]
    rw [sortByKey_eq_self_of_const (fun p : Int × Nat => p.2) 0 _ (by
      intro y hy
      rcases List.mem_map.1 hy with ⟨v, _, hv⟩
      rw [← hv])]
    rw [hd]
    rw [List.map_map]
    exact List.map_id'' (fun v => rfl) d

theorem conflictLoop_restore (csp : CSP) (nbs : List String) :
    ∀ (t : Assignment) (cnt cnt' : Nat) (t₂ : Assignment),
      conflictLoop csp t cnt nbs = .ok (cnt', t₂) → t₂ = t := by
  induction nbs with
  | nil =>
    intro t cnt cnt' t₂ h
    simp only [conflictLoop, Except.ok.injEq, Prod.mk.injEq] at h
    exact h.2.symm
  | cons nb nbs ih =>
    intro t cnt cnt' t₂ h
    simp only [conflictLoop] at h
    split at h
    next hcond =>
      exact ih t cnt cnt' t₂ h
    next hcond =>
      split at h
      next e heq => exact absurd h (by simp)
      next d heq =>
        rw [sumConflicts_restore csp nb t d (by simpa using hcond)] at h
        exact ih t _ cnt' t₂ h

theorem count_conflicts_inv (csp : CSP) (x : String) (val : Int) (n : NbrDict)
    (a : Assignment) (cnt : Nat) (a₁ : Assignment) (n₁ : NbrDict)
    (h : count_conflicts csp x val n a = .ok (cnt, a₁, n₁)) :
    n₁ = (ddGet n x).2 ∧ (containsKey a x = false → a₁ = a) := by
  unfold count_conflicts at h
  simp only [] at h
  split at h
  · exact absurd h (by simp)
  next r hloop =>
    split at h
    · exact absurd h (by simp)
    next t' hdel =>
      simp only [Except.ok.injEq, Prod.mk.injEq] at h
      have hr : r.2 = dictSet a x val := conflictLoop_restore csp _ _ _ r.1 r.2 (by
        rw [hloop])
      have ht' : t' = removeKey r.2 x := by
        unfold dictDel at hdel
        split at hdel
        · simpa using hdel.symm
        · exact absurd hdel (by simp)
      refine ⟨h.2.2.symm, ?_⟩
      intro hx
      rw [← h.2.1, ht', hr, removeKey_dictSet_of_not_contains a x val hx]

theorem conflictKeys_restore (csp : CSP) (x : String) (vals : List Int) :
    ∀ (n : NbrDict) (a : Assignment) (ks : List (Int × Nat)) (a₁ : Assignment) (n₁ : NbrDict),
      conflictKeys csp x vals n a = .ok (ks, a₁, n₁) → containsKey a x = false →
      a₁ = a ∧ SameGraph n n₁ := by
  induction vals with
  | nil =>
    intro n a ks a₁ n₁ h _
    simp only [conflictKeys, Except.ok.injEq, Prod.mk.injEq] at h
    exact ⟨h.2.1.symm, h.2.2 ▸ sameGraph_refl n⟩
  | cons val vs ih =>
    intro n a ks a₁ n₁ h hx
    simp only [conflictKeys] at h
    split at h
    · exact absurd h (by simp)
    next r hcc =>
      split at h
      · exact absurd h (by simp)
      next r2 hck =>
        simp only [Except.ok.injEq, Prod.mk.injEq] at h
        have ha₁ : r2.2.1 = a₁ := congrArg Prod.fst h.2
        have hn₁ : r2.2.2 = n₁ := congrArg Prod.snd h.2
        obtain ⟨hn1, hrestore⟩ :=
          count_conflicts_inv csp x val n a r.1 r.2.1 r.2.2 (by rw [hcc])
        have hr2 := ih r.2.2 r.2.1 r2.1 r2.2.1 r2.2.2 (by rw [hck]) (by
          rw [hrestore hx]; exact hx)
        refine ⟨?_, ?_⟩
        · rw [← ha₁, hr2.1, hrestore hx]
        · intro k
          rw [← hn₁]
          rw [hr2.2 k, hn1]
          exact nbrFun_ddGet_snd n x k

theorem order_values_restore (csp : CSP) (x : String) (n : NbrDict) (a : Assignment)
    (vals : List Int) (a₁ : Assignment) (n₁ : NbrDict)
    (h : order_values_by_least_conflicts csp x n a = .ok (vals, a₁, n₁))
    (hx : containsKey a x = false) : a₁ = a ∧ SameGraph n n₁ := by
  unfold order_values_by_least_conflicts at h
  split at h
  · exact absurd h (by simp)
  next d hd =>
    split at h
    · exact absurd h (by simp)
    next r hck =>
      simp only [Except.ok.injEq, Prod.mk.injEq] at h
      have hres := conflictKeys_restore csp x d n a r.1 r.2.1 r.2.2 (by rw [hck]) hx
      have ha₁ : r.2.1 = a₁ := congrArg Prod.fst h.2
      have hn₁ : r.2.2 = n₁ := congrArg Prod.snd h.2
      exact ⟨ha₁ ▸ hres.1, hn₁ ▸ hres.2⟩

/-! ### Facts about `_recursive_backtracking` -/

theorem tryValues_inv (csp : CSP)
    (recur : NbrDict → Assignment → Except String (Option Assignment × Assignment × NbrDict))
    (hrecur : ∀ n a r s n', recur n a = .ok (r, s, n') →
      (r = none → s = a) ∧ (∀ sol, r = some sol → s = sol) ∧ SameGraph n n')
    (x : String) (vals : List Int) :
    ∀ (n : NbrDict) (a : Assignment), containsKey a x = false →
      ∀ r s n', tryValues csp recur x n a vals = .ok (r, s, n') →
        (r = none → s = a) ∧ (∀ sol, r = some sol → s = sol) ∧ SameGraph n n' := by
  induction vals with
  | nil =>
    intro n a hx r s n' h
    simp only [tryValues, Except.ok.injEq, Prod.mk.injEq] at h
    refine ⟨fun _ => ?_, fun sol hsol => ?_, ?_⟩
    · rw [← h.2.1]
    · rw [← h.1] at hsol; exact absurd hsol (by simp)
    · intro k; rw [← h.2.2]
  | cons val rest ih =>
    intro n a hx r s n' h
    simp only [tryValues] at h
    rw [is_assignment_valid_restore csp x val a hx] at h
    split at h
    next hvalid =>
      split at h
      next e heq => exact absurd h (by simp)
      next sol s₀ n₁ heq =>
        have hs₀ : s₀ = sol := ((hrecur _ _ _ _ _ heq).2.1 sol rfl)
        have hsg₀ : SameGraph n n₁ := (hrecur _ _ _ _ _ heq).2.2
        split at h
        next hempty =>
          exfalso
          rw [hs₀, List.isEmpty_iff.1 hempty] at h
          simp only [dictDel, containsKey, dictGet?] at h
          exact absurd h (by simp)
        next hempty =>
          simp only [Except.ok.injEq, Prod.mk.injEq] at h
          refine ⟨fun hr => ?_, fun sol' hsol' => ?_, ?_⟩
          · rw [← h.1] at hr; exact absurd hr (by simp)
          · rw [← h.1] at hsol'
            simp only [Option.some.injEq] at hsol'
            rw [← h.2.1, hs₀, hsol']
          · intro k; rw [← h.2.2]; exact hsg₀ k
      next s₀ n₁ heq =>
        have hs₀ : s₀ = dictSet a x val := ((hrecur _ _ _ _ _ heq).1 rfl)
        have hsg₀ : SameGraph n n₁ := (hrecur _ _ _ _ _ heq).2.2
        rw [hs₀] at h
        simp only [dictDel, containsKey_dictSet_self, if_true,
          removeKey_dictSet_of_not_contains a x val hx] at h
        have := ih n₁ a hx r s n' h
        refine ⟨this.1, this.2.1, ?_⟩
        intro k
        rw [this.2.2 k]
        exact hsg₀ k
    next hvalid =>
      exact ih n a hx r s n' h

theorem rb_inv (csp : CSP) :
    ∀ (fuel : Nat) (n : NbrDict) (a : Assignment) (r : Option Assignment)
      (s : Assignment) (n' : NbrDict),
      recursive_backtracking csp fuel n a = .ok (r, s, n') →
      (r = none → s = a) ∧ (∀ sol, r = some sol → s = sol) ∧ SameGraph n n' := by
  intro fuel
  induction fuel with
  | zero =>
    intro n a r s n' h
    exact absurd h (by simp [recursive_backtracking])
  | succ fuel ih =>
    intro n a r s n' h
    simp only [recursive_backtracking] at h
    split at h
    next hlen =>
      simp only [Except.ok.injEq, Prod.mk.injEq] at h
      refine ⟨fun hr => ?_, fun sol hsol => ?_, ?_⟩
      · rw [← h.1] at hr; exact absurd hr (by simp)
      · rw [← h.2.1, ← (by rw [← h.1] at hsol; simpa using hsol : a = sol)]
      · intro k; rw [← h.2.2]
    next hlen =>
      split at h
      next e heq => exact absurd h (by simp)
      next x n₁ hsel =>
        split at h
        next e heq => exact absurd h (by simp)
        next vals a₁ n₂ hord =>
          have hx : containsKey a x = false := (select_ok_unassigned hsel).2
          have hsg₁ : SameGraph n n₁ := (select_ok_spec csp n a x n₁ hsel).2.1
          obtain ⟨ha₁, hsg₂⟩ := order_values_restore csp x n₁ a vals a₁ n₂ hord hx
          rw [ha₁] at h
          have := tryValues_inv csp (recursive_backtracking csp fuel) ih x vals n₂ a hx r s n' h
          refine ⟨this.1, this.2.1, ?_⟩
          intro k
          rw [this.2.2 k, hsg₂ k, hsg₁ k]

/-! ### The search invariant: fully instantiated constraints hold -/

/-- All variables of the tuple `vs` are bound in `a`. -/
def AllBound (a : Assignment) (vs : List String) : Prop :=
  ∀ z ∈ vs, (dictGet? a z).isSome = true

/-- Every constraint whose tuple is fully contained in `a` holds on the bound
values (in tuple order). -/
def Consistent (csp : CSP) (a : Assignment) : Prop :=
  ∀ c ∈ csp.constraints, AllBound a c.1 →
    c.2 (c.1.map (fun z => (dictGet? a z).getD 0)) = true

/-- The committed assignments the backtracking search can pass to a recursive
call: the empty dict that `solve` starts from, and every extension of a
reachable assignment by a variable/value pair that was unassigned and accepted
by `_is_assignment_valid` — exactly the commits of line 81 of the source. -/
inductive ReachableEntry (csp : CSP) : Assignment → Prop
  | init : ReachableEntry csp []
  | step (a : Assignment) (x : String) (val : Int) :
      ReachableEntry csp a → containsKey a x = false →
      (is_assignment_valid csp x val a).1 = true →
      ReachableEntry csp (dictSet a x val)

theorem consistent_nil (csp : CSP) (hne : ∀ c ∈ csp.constraints, c.1 ≠ []) :
    Consistent csp [] := by
  intro c hc hall
  exfalso
  cases hcs : c.1 with
  | nil => exact hne c hc hcs
  | cons z zs =>
    have := hall z (by rw [hcs]; exact List.mem_cons_self _ _)
    simp [dictGet?] at this

theorem consistent_preserved (csp : CSP) (a : Assignment) (x : String) (val : Int)
    (hcons : Consistent csp a)
    (hvalid : (is_assignment_valid csp x val a).1 = true) :
    Consistent csp (dictSet a x val) := by
  intro c hc hall
  by_cases hmem : x ∈ c.1
  · by_contra hfalse
    rw [← Bool.not_eq_false] at hvalid
    apply hvalid
    rw [is_assignment_valid_false_iff]
    exact ⟨c, hc, hmem, fun z hz => hall z hz, by
      rw [Bool.not_eq_true] at hfalse
      exact hfalse⟩
  · have hsame : ∀ z ∈ c.1, dictGet? (dictSet a x val) z = dictGet? a z := by
      intro z hz
      exact dictGet?_dictSet_ne a x z val (fun hzx => hmem (hzx ▸ hz))
    have hall' : AllBound a c.1 := by
      intro z hz
      rw [← hsame z hz]
      exact hall z hz
    have hmaps : (c.1.map (fun z => (dictGet? (dictSet a x val) z).getD 0)) =
        (c.1.map (fun z => (dictGet? a z).getD 0)) :=
      List.map_congr_left (fun z hz => by rw [hsame z hz])
    rw [hmaps]
    exact hcons c hc hall'

theorem reachable_consistent (csp : CSP) (hne : ∀ c ∈ csp.constraints, c.1 ≠ []) :
    ∀ a, ReachableEntry csp a → Consistent csp a := by
  intro a h
  induction h with
  | init => exact consistent_nil csp hne
  | step a x val _ _ hvalid ih => exact consistent_preserved csp a x val ih hvalid

theorem tryValues_sound (csp : CSP)
    (recur : NbrDict → Assignment → Except String (Option Assignment × Assignment × NbrDict))
    (hrecur_inv : ∀ n a r s n', recur n a = .ok (r, s, n') →
      (r = none → s = a) ∧ (∀ sol, r = some sol → s = sol) ∧ SameGraph n n')
    (hrecur_sound : ∀ n a sol s n', recur n a = .ok (some sol, s, n') →
      Consistent csp a → (keys a).Nodup → (∀ k ∈ keys a, k ∈ csp.vars) →
      Consistent csp sol ∧ sol.length = csp.vars.length ∧ (keys sol).Nodup ∧
        (∀ k ∈ keys sol, k ∈ csp.vars))
    (x : String) (hxv : x ∈ csp.vars) (vals : List Int) :
    ∀ (n : NbrDict) (a : Assignment), containsKey a x = false →
      Consistent csp a → (keys a).Nodup → (∀ k ∈ keys a, k ∈ csp.vars) →
      ∀ sol s n', tryValues csp recur x n a vals = .ok (some sol, s, n') →
        Consistent csp sol ∧ sol.length = csp.vars.length ∧ (keys sol).Nodup ∧
          (∀ k ∈ keys sol, k ∈ csp.vars) := by
  induction vals with
  | nil =>
    intro n a hx _ _ _ sol s n' h
    simp only [tryValues, Except.ok.injEq, Prod.mk.injEq] at h
    exact absurd h.1 (by simp)
  | cons val rest ih =>
    intro n a hx hcons hnodup hsub sol s n' h
    simp only [tryValues] at h
    rw [is_assignment_valid_restore csp x val a hx] at h
    split at h
    next hvalid =>
      split at h
      next e heq => exact absurd h (by simp)
      next sol₀ s₀ n₁ heq =>
        have hcons' : Consistent csp (dictSet a x val) :=
          consistent_preserved csp a x val hcons hvalid
        have hnodup' : (keys (dictSet a x val)).Nodup := nodup_keys_dictSet a x val hnodup
        have hsub' : ∀ k ∈ keys (dictSet a x val), k ∈ csp.vars := by
          intro k hk
          rcases keys_dictSet a x val k hk with hk | hk
          · rw [hk]; exact hxv
          · exact hsub k hk
        have hsound := hrecur_sound n (dictSet a x val) sol₀ s₀ n₁ heq hcons' hnodup' hsub'
        have hs₀ : s₀ = sol₀ := (hrecur_inv _ _ _ _ _ heq).2.1 sol₀ rfl
        split at h
        next hempty =>
          exfalso
          rw [hs₀, List.isEmpty_iff.1 hempty] at h
          simp only [dictDel, containsKey, dictGet?] at h
          exact absurd h (by simp)
        next hempty =>
          simp only [Except.ok.injEq, Prod.mk.injEq, Option.some.injEq] at h
          rw [← h.1]
          exact hsound
      next s₀ n₁ heq =>
        have hs₀ : s₀ = dictSet a x val := (hrecur_inv _ _ _ _ _ heq).1 rfl
        rw [hs₀] at h
        simp only [dictDel, containsKey_dictSet_self, if_true,
          removeKey_dictSet_of_not_contains a x val hx] at h
        exact ih n₁ a hx hcons hnodup hsub sol s n' h
    next hvalid =>
      exact ih n a hx hcons hnodup hsub sol s n' h

theorem rb_sound (csp : CSP) :
    ∀ (fuel : Nat) (n : NbrDict) (a : Assignment) (sol s : Assignment) (n' : NbrDict),
      recursive_backtracking csp fuel n a = .ok (some sol, s, n') →
      Consistent csp a → (keys a).Nodup → (∀ k ∈ keys a, k ∈ csp.vars) →
      Consistent csp sol ∧ sol.length = csp.vars.length ∧ (keys sol).Nodup ∧
        (∀ k ∈ keys sol, k ∈ csp.vars) := by
  intro fuel
  induction fuel with
  | zero =>
    intro n a sol s n' h
    exact absurd h (by simp [recursive_backtracking])
  | succ fuel ih =>
    intro n a sol s n' h hcons hnodup hsub
    simp only [recursive_backtracking] at h
    split at h
    next hlen =>
      simp only [Except.ok.injEq, Prod.mk.injEq, Option.some.injEq] at h
      rw [← h.1]
      exact ⟨hcons, hlen, hnodup, hsub⟩
    next hlen =>
      split at h
      next e heq => exact absurd h (by simp)
      next x n₁ hsel =>
        split at h
        next e heq => exact absurd h (by simp)
        next vals a₁ n₂ hord =>
          have hx : containsKey a x = false := (select_ok_unassigned hsel).2
          have hxv : x ∈ csp.vars := (select_ok_unassigned hsel).1
          obtain ⟨ha₁, _⟩ := order_values_restore csp x n₁ a vals a₁ n₂ hord hx
          rw [ha₁] at h
          exact tryValues_sound csp (recursive_backtracking csp fuel) (rb_inv csp fuel)
            (fun n a sol s n' hh hc hn hs => ih n a sol s n' hh hc hn hs)
            x hxv vals n₂ a hx hcons hnodup hsub sol s n' h

/-! ### The constraint graph only mentions constraint variables -/

theorem nbrFun_ddExtend (n : NbrDict) (k : String) (vs : List String) (j : String) :
    nbrFun (ddExtend n k vs) j =
      if j = k then nbrFun n k ++ vs else nbrFun n j := by
  unfold ddExtend
  simp only []
  by_cases hj : j = k
  · subst hj
    rw [if_pos rfl, nbrFun, dictGet?_dictSet_self, ddGet_fst]
    simp
  · rw [if_neg hj, nbrFun, dictGet?_dictSet_ne _ _ _ _ hj]
    exact nbrFun_ddGet_snd n k j

theorem nbrFun_edges_fold (ws : String → List String) :
    ∀ (l : List String) (n : NbrDict) (j z : String),
      z ∈ nbrFun (l.foldl (fun acc var => ddExtend acc var (ws var)) n) j →
      z ∈ nbrFun n j ∨ ∃ var ∈ l, z ∈ ws var := by
  intro l
  induction l with
  | nil => intro n j z h; exact Or.inl h
  | cons var l ih =>
    intro n j z h
    rw [List.foldl_cons] at h
    rcases ih (ddExtend n var (ws var)) j z h with h1 | ⟨w, hw, hzw⟩
    · rw [nbrFun_ddExtend] at h1
      by_cases hj : j = var
      · rw [if_pos hj] at h1
        rcases List.mem_append.1 h1 with h1 | h1
        · exact Or.inl (hj ▸ h1)
        · exact Or.inr ⟨var, List.mem_cons_self _ _, h1⟩
      · rw [if_neg hj] at h1
        exact Or.inl h1
    · exact Or.inr ⟨w, List.mem_cons_of_mem _ hw, hzw⟩

theorem nbrFun_create_graph (cs : List (List String × (List Int → Bool))) :
    ∀ (j z : String), z ∈ nbrFun (create_constraint_graph cs) j → ∃ c ∈ cs, z ∈ c.1 := by
  have main : ∀ (cs' : List (List String × (List Int → Bool))) (n : NbrDict) (j z : String),
      z ∈ nbrFun (cs'.foldl
        (fun acc c =>
          c.1.foldl (fun acc2 var => ddExtend acc2 var (c.1.filter (fun v => v != var))) acc)
        n) j →
      z ∈ nbrFun n j ∨ ∃ c ∈ cs', z ∈ c.1 := by
    intro cs'
    induction cs' with
    | nil => intro n j z h; exact Or.inl h
    | cons c cs' ih =>
      intro n j z h
      rw [List.foldl_cons] at h
      rcases ih _ j z h with h1 | ⟨c', hc', hzc'⟩
      · rcases nbrFun_edges_fold (fun var => c.1.filter (fun v => v != var)) c.1 n j z h1 with
          h2 | ⟨w, _, hzw⟩
        · exact Or.inl h2
        · exact Or.inr ⟨c, List.mem_cons_self _ _, List.mem_of_mem_filter hzw⟩
      · exact Or.inr ⟨c', List.mem_cons_of_mem _ hc', hzc'⟩
  intro j z h
  rcases main cs [] j z h with h1 | h1
  · simp [nbrFun, dictGet?] at h1
  · exact h1

/-- Every list the defaultdict can yield consists of constraint-tuple variables. -/
def GraphBound (csp : CSP) (n : NbrDict) : Prop :=
  ∀ k z, z ∈ nbrFun n k → ∃ c ∈ csp.constraints, z ∈ c.1

theorem graphBound_of_sameGraph {csp : CSP} {n n' : NbrDict}
    (hsg : SameGraph n n') (h : GraphBound csp n) : GraphBound csp n' := by
  intro k z hz
  rw [hsg k] at hz
  exact h k z hz

theorem graphBound_create (csp : CSP) :
    GraphBound csp (create_constraint_graph csp.constraints) :=
  fun k z hz => nbrFun_create_graph csp.constraints k z hz

/-! ### A variable missing from the assignment bounds its size -/

theorem length_lt_of_unassigned (vars : List String) (a : Assignment) (v : String)
    (hv : v ∈ vars) (hnv : containsKey a v = false)
    (hnodup : (keys a).Nodup) (hsub : ∀ k ∈ keys a, k ∈ vars) :
    a.length < vars.length := by
  have hlen : a.length = (keys a).length := (List.length_map a Prod.fst).symm
  have hvnk : v ∉ keys a := by
    rw [mem_keys_iff_contains]
    simp [hnv]
  have hnd : (v :: keys a).Nodup := List.nodup_cons.2 ⟨hvnk, hnodup⟩
  have hsub' : (v :: keys a) ⊆ vars := by
    intro k hk
    rcases List.mem_cons.1 hk with hk | hk
    · exact hk ▸ hv
    · exact hsub k hk
  have hle := (List.subperm_of_subset hnd hsub').length_le
  rw [List.length_cons] at hle
  omega

/-! ### With an empty-domain variable the search always fails -/

theorem tryValues_none (csp : CSP) (v x : String) (fuel : Nat)
    (hvx : x ≠ v) (hxv : x ∈ csp.vars)
    (hrec : ∀ (n : NbrDict) (a : Assignment), GraphBound csp n → containsKey a v = false →
      (keys a).Nodup → (∀ k ∈ keys a, k ∈ csp.vars) →
      csp.vars.length - a.length < fuel →
      ∃ n', recursive_backtracking csp fuel n a = .ok (none, a, n') ∧ GraphBound csp n') :
    ∀ (vals : List Int) (n : NbrDict) (a : Assignment), GraphBound csp n →
      containsKey a x = false → containsKey a v = false →
      (keys a).Nodup → (∀ k ∈ keys a, k ∈ csp.vars) →
      a.length < csp.vars.length →
      csp.vars.length - a.length < fuel + 1 →
      ∃ n', tryValues csp (recursive_backtracking csp fuel) x n a vals = .ok (none, a, n') ∧
        GraphBound csp n' := by
  intro vals
  induction vals with
  | nil =>
    intro n a hGB hx hv2 hnd hsub hlt hfuel
    exact ⟨n, rfl, hGB⟩
  | cons val rest ih =>
    intro n a hGB hx hv2 hnd hsub hlt hfuel
    have hvne : v ≠ x := Ne.symm hvx
    by_cases hvalid : (is_assignment_valid csp x val a).1 = true
    · have hx' : containsKey (dictSet a x val) v = false := by
        unfold containsKey
        rw [dictGet?_dictSet_ne a x v val hvne]
        exact hv2
      have hnd' := nodup_keys_dictSet a x val hnd
      have hsub' : ∀ k ∈ keys (dictSet a x val), k ∈ csp.vars := by
        intro k hk
        rcases keys_dictSet a x val k hk with hk | hk
        · exact hk ▸ hxv
        · exact hsub k hk
      have hlen' : (dictSet a x val).length = a.length + 1 :=
        length_dictSet_of_not_contains a x val hx
      have hfuel' : csp.vars.length - (dictSet a x val).length < fuel := by
        rw [hlen']; omega
      obtain ⟨n₃, hrecEq, hGB₃⟩ := hrec n (dictSet a x val) hGB hx' hnd' hsub' hfuel'
      obtain ⟨n'', htr, hGB''⟩ := ih n₃ a hGB₃ hx hv2 hnd hsub hlt hfuel
      refine ⟨n'', ?_, hGB''⟩
      simp only [tryValues, is_assignment_valid_restore csp x val a hx, hvalid, if_true]
      split
      next e heq =>
        rw [hrecEq] at heq
        exact absurd heq (by simp)
      next sol s n₁ heq =>
        rw [hrecEq] at heq
        simp only [Except.ok.injEq, Prod.mk.injEq] at heq
        exact absurd heq.1 (by simp)
      next s n₁ heq =>
        rw [hrecEq] at heq
        simp only [Except.ok.injEq, Prod.mk.injEq] at heq
        rw [← heq.2.1]
        have hdel : dictDel (dictSet a x val) x = .ok a := by
          unfold dictDel
          rw [containsKey_dictSet_self, if_pos rfl,
            removeKey_dictSet_of_not_contains a x val hx]
        rw [hdel, ← heq.2.2]
        exact htr
    · have hvf : (is_assignment_valid csp x val a).1 = false := by
        rw [Bool.not_eq_true] at hvalid; exact hvalid
      obtain ⟨n'', htr, hGB''⟩ := ih n a hGB hx hv2 hnd hsub hlt hfuel
      refine ⟨n'', ?_, hGB''⟩
      simp only [tryValues, is_assignment_valid_restore csp x val a hx, hvf,
        Bool.false_eq_true, if_false]
      exact htr

theorem rb_none (csp : CSP) (v : String)
    (hv : v ∈ csp.vars) (hvdom : dictGet? csp.domains v = some [])
    (hvd : ∀ y ∈ csp.vars, containsKey csp.domains y = true)
    (hcv : ∀ c ∈ csp.constraints, ∀ z ∈ c.1, containsKey csp.domains z = true) :
    ∀ (fuel : Nat) (n : NbrDict) (a : Assignment),
      GraphBound csp n → containsKey a v = false →
      (keys a).Nodup → (∀ k ∈ keys a, k ∈ csp.vars) →
      csp.vars.length - a.length < fuel →
      ∃ n', recursive_backtracking csp fuel n a = .ok (none, a, n') ∧ GraphBound csp n' := by
  intro fuel
  induction fuel with
  | zero =>
    intro n a _ _ _ hsub hfuel
    exact absurd hfuel (by omega)
  | succ fuel ih =>
    intro n a hGB hv2 hnd hsub hfuel
    have hlt : a.length < csp.vars.length :=
      length_lt_of_unassigned csp.vars a v hv hv2 hnd hsub
    have hne : ¬(a.length = csp.vars.length) := by omega
    have hvmem : v ∈ unassignedVars csp a := mem_unassignedVars.2 ⟨hv, hv2⟩
    have hone : unassignedVars csp a ≠ [] := by
      intro hcon
      rw [hcon] at hvmem
      exact absurd hvmem (by simp)
    have hdomu : ∀ y ∈ unassignedVars csp a, containsKey csp.domains y = true :=
      fun y hy => hvd y (mem_unassignedVars.1 hy).1
    obtain ⟨x, n₁, hsel⟩ := select_ok_of_nonempty csp n a hone hdomu
    obtain ⟨hxu, hsgn₁, _, _⟩ := select_ok_spec csp n a x n₁ hsel
    have hx : containsKey a x = false := (mem_unassignedVars.1 hxu).2
    have hxv : x ∈ csp.vars := (mem_unassignedVars.1 hxu).1
    have hGB₁ : GraphBound csp n₁ := graphBound_of_sameGraph hsgn₁ hGB
    have hdx : containsKey csp.domains x = true := hvd x hxv
    have hnb : ∀ z ∈ nbrFun n₁ x, containsKey csp.domains z = true := by
      intro z hz
      rcases hGB₁ x z hz with ⟨c, hc, hzc⟩
      exact hcv c hc z hzc
    obtain ⟨vals, n₂, hord, hperm, hsgn₂, hvalsempty⟩ :=
      order_values_ok csp x n₁ a hx hdx hnb
    have hGB₂ : GraphBound csp n₂ := graphBound_of_sameGraph hsgn₂ hGB₁
    by_cases hxeqv : x = v
    · have hvals : vals = [] := by
        subst hxeqv
        rw [hvdom] at hperm
        exact ((by simpa using hperm : vals.Perm ([] : List Int)).symm.nil_eq).symm
      refine ⟨n₂, ?_, hGB₂⟩
      simp only [recursive_backtracking, hne, if_false, hsel, hord, hvals]
      rfl
    · obtain ⟨n', htr, hGB'⟩ := tryValues_none csp v x fuel hxeqv hxv ih vals n₂ a hGB₂
        hx hv2 hnd hsub hlt hfuel
      refine ⟨n', ?_, hGB'⟩
      simp only [recursive_backtracking, hne, if_false, hsel, hord]
      exact htr

/-! ### With no constraints the search assigns first domain values -/

theorem dictSet_eq_append {β : Type} (d : Dict β) (k : String) (v : β)
    (h : containsKey d k = false) : dictSet d k v = d ++ [(k, v)] := by
  induction d with
  | nil => simp [dictSet]
  | cons p rest ih =>
    obtain ⟨k', v'⟩ := p
    simp only [containsKey, dictGet?] at h
    by_cases hk : k' = k
    · simp [hk] at h
    · simp only [hk, if_false] at h
      simp [dictSet, hk, ih (by simpa [containsKey] using h)]

theorem is_valid_of_no_constraints (csp : CSP) (hcs : csp.constraints = [])
    (x : String) (val : Int) (a : Assignment) :
    (is_assignment_valid csp x val a).1 = true := by
  unfold is_assignment_valid
  simp only []
  rw [hcs]
  simp

theorem rb_first (csp : CSP) (hcs : csp.constraints = [])
    (hvnodup : csp.vars.Nodup)
    (hdom : ∀ y ∈ csp.vars, ∃ w ws, dictGet? csp.domains y = some (w :: ws)) :
    ∀ (fuel : Nat) (n : NbrDict) (a : Assignment),
      (∀ k, nbrFun n k = []) →
      (keys a).Nodup → (∀ k ∈ keys a, k ∈ csp.vars) →
      (∀ p ∈ a, ∃ ws, dictGet? csp.domains p.1 = some (p.2 :: ws)) →
      csp.vars.length - a.length < fuel →
      ∃ sol n', recursive_backtracking csp fuel n a = .ok (some sol, sol, n') ∧
        sol.length = csp.vars.length ∧ (keys sol).Nodup ∧
        (∀ k ∈ keys sol, k ∈ csp.vars) ∧
        (∀ p ∈ sol, ∃ ws, dictGet? csp.domains p.1 = some (p.2 :: ws)) := by
  intro fuel
  induction fuel with
  | zero =>
    intro n a _ _ _ _ hfuel
    exact absurd hfuel (by omega)
  | succ fuel ih =>
    intro n a hGE hnd hsub hfirst hfuel
    by_cases hlen : a.length = csp.vars.length
    · refine ⟨a, n, ?_, hlen, hnd, hsub, hfirst⟩
      simp only [recursive_backtracking, if_pos hlen]
    · have hle : a.length ≤ csp.vars.length := by
        have : (keys a).Subperm csp.vars := List.subperm_of_subset hnd hsub
        have h2 := this.length_le
        have h3 : a.length = (keys a).length := (List.length_map a Prod.fst).symm
        omega
      have hlt : a.length < csp.vars.length := by omega
      have hone : unassignedVars csp a ≠ [] := by
        intro hcon
        unfold unassignedVars at hcon
        rw [List.filter_eq_nil_iff] at hcon
        have hsub2 : csp.vars ⊆ keys a := by
          intro y hy
          have hcy := hcon y hy
          rw [mem_keys_iff_contains]
          simpa using hcy
        have := (List.subperm_of_subset hvnodup hsub2).length_le
        have h3 : a.length = (keys a).length := (List.length_map a Prod.fst).symm
        omega
      have hdomu : ∀ y ∈ unassignedVars csp a, containsKey csp.domains y = true := by
        intro y hy
        rcases hdom y (mem_unassignedVars.1 hy).1 with ⟨w, ws, hw⟩
        simp [containsKey, hw]
      obtain ⟨x, n₁, hsel⟩ := select_ok_of_nonempty csp n a hone hdomu
      obtain ⟨hxu, hsgn₁, _, _⟩ := select_ok_spec csp n a x n₁ hsel
      have hx : containsKey a x = false := (mem_unassignedVars.1 hxu).2
      have hxv : x ∈ csp.vars := (mem_unassignedVars.1 hxu).1
      have hGE₁ : ∀ k, nbrFun n₁ k = [] := fun k => (hsgn₁ k).trans (hGE k)
      rcases hdom x hxv with ⟨w, ws, hwx⟩
      have hdx : containsKey csp.domains x = true := by simp [containsKey, hwx]
      obtain ⟨vals, n₂, hord, hperm, hsgn₂, hvempty⟩ :=
        order_values_ok csp x n₁ a hx hdx
          (by intro z hz; rw [hGE₁ x] at hz; exact absurd hz (by simp))
      have hvals : vals = w :: ws := by
        rw [hvempty (hGE₁ x), hwx]
        rfl
      have hGE₂ : ∀ k, nbrFun n₂ k = [] := fun k => (hsgn₂ k).trans (hGE₁ k)
      have hnd' := nodup_keys_dictSet a x w hnd
      have hsub' : ∀ k ∈ keys (dictSet a x w), k ∈ csp.vars := by
        intro k hk
        rcases keys_dictSet a x w k hk with hk | hk
        · exact hk ▸ hxv
        · exact hsub k hk
      have hfirst' : ∀ p ∈ dictSet a x w, ∃ ws', dictGet? csp.domains p.1 = some (p.2 :: ws') := by
        intro p hp
        rw [dictSet_eq_append a x w hx] at hp
        rcases List.mem_append.1 hp with hp | hp
        · exact hfirst p hp
        · have : p = (x, w) := by simpa using hp
          rw [this]
          exact ⟨ws, hwx⟩
      have hlen' : (dictSet a x w).length = a.length + 1 :=
        length_dictSet_of_not_contains a x w hx
      have hfuel' : csp.vars.length - (dictSet a x w).length < fuel := by
        rw [hlen']; omega
      obtain ⟨sol, n₃, hrecEq, hsollen, hsolnd, hsolsub, hsolfirst⟩ :=
        ih n₂ (dictSet a x w) hGE₂ hnd' hsub' hfirst' hfuel'
      refine ⟨sol, n₃, ?_, hsollen, hsolnd, hsolsub, hsolfirst⟩
      have hsolne : sol.isEmpty = false := by
        cases hsol : sol with
        | nil =>
          rw [hsol] at hsollen
          simp only [List.length_nil] at hsollen
          omega
        | cons p ps => rfl
      simp only [recursive_backtracking, if_neg hlen, hsel, hord, hvals]
      simp only [tryValues, is_assignment_valid_restore csp x w a hx,
        is_valid_of_no_constraints csp hcs x w a, if_true]
      split
      next e heq =>
        rw [hrecEq] at heq
        exact absurd heq (by simp)
      next sol₀ s₀ n₄ heq =>
        rw [hrecEq] at heq
        simp only [Except.ok.injEq, Prod.mk.injEq, Option.some.injEq] at heq
        rw [← heq.1, ← heq.2.1, ← heq.2.2, hsolne]
        simp
      next s₀ n₄ heq =>
        rw [hrecEq] at heq
        simp only [Except.ok.injEq, Prod.mk.injEq] at heq
        exact absurd heq.1 (by simp)

/-! ### Concrete instances used by the claim witnesses and counterexamples -/

/-- Two variables, domains `[1,2]`, one binary difference constraint. -/
def cspPair : CSP :=
  ⟨["A", "B"], [("A", [1, 2]), ("B", [1, 2])],
   [(["A", "B"], fun vs => match vs with | [a, b] => a != b | _ => true)]⟩

/-- The unconstrained variable `A` has the smallest domain, while `B` shares
two constraints with `C` and so has the larger neighbor count. -/
def cspMrv : CSP :=
  ⟨["A", "B", "C"], [("A", [1]), ("B", [1, 2]), ("C", [1, 2, 3])],
   [(["B", "C"], fun _ => true), (["B", "C"], fun _ => true)]⟩

/-- One variable, no constraints; used to observe the checker's dict state. -/
def cspFrame : CSP := ⟨["x"], [("x", [1, 2])], []⟩

/-- One variable that occurs in no constraint. -/
def cspIsolated : CSP := ⟨["A"], [("A", [1])], []⟩

/-- The only constraint mentions `Z`, which is not a declared variable, and
is unsatisfiable (its predicate is constantly false). -/
def cspUnknownVar : CSP := ⟨["A"], [("A", [1])], [(["Z"], fun _ => false)]⟩

/-- One variable with an empty domain. -/
def cspEmptyDomain : CSP := ⟨["A"], [("A", [])], []⟩

/-- Two unconstrained variables with non-empty domains. -/
def cspTwoFree : CSP := ⟨["A", "B"], [("A", [5, 6]), ("B", [7])], []⟩

/-! ### The claims -/

/-- C1: for every CSP instance (per the data model of the specification:
constraints ranging over non-empty tuples of declared variables), whenever `solve` returns a result other than the no-solution
indicator, the returned assignment binds every variable, its size equals the
number of variables, and every constraint's predicate is true on the returned
values of its tuple variables, in tuple order. -/
theorem c1_solutions_complete_and_satisfying (csp : CSP) (sol : Assignment)
    (htup : ∀ c ∈ csp.constraints, c.1 ≠ [] ∧ ∀ z ∈ c.1, z ∈ csp.vars)
    (hsol : solve csp = .ok (some sol)) :
    sol.length = csp.vars.length ∧
    (∀ v ∈ csp.vars, (dictGet? sol v).isSome = true) ∧
    (∀ c ∈ csp.constraints, c.2 (c.1.map (fun z => (dictGet? sol z).getD 0)) = true) := by
  unfold solve at hsol
  split at hsol
  · exact absurd hsol (by simp)
  next r heq =>
    simp only [Except.ok.injEq] at hsol
    obtain ⟨r1, s, n'⟩ := r
    have hr1 : r1 = some sol := hsol
    subst hr1
    obtain ⟨hcons, hlen, hnd, hsub⟩ := rb_sound csp (csp.vars.length + 1)
      (create_constraint_graph csp.constraints) [] sol s n' heq
      (consistent_nil csp (fun c hc => (htup c hc).1)) (by simp [keys]) (by simp [keys])
    have hkl : (keys sol).length = sol.length := List.length_map sol Prod.fst
    have hperm : (keys sol).Perm csp.vars :=
      (List.subperm_of_subset hnd (by intro k hk; exact hsub k hk)).perm_of_length_le
        (by omega)
    have hbound : ∀ v ∈ csp.vars, (dictGet? sol v).isSome = true := by
      intro v hv
      have hvk : v ∈ keys sol := hperm.mem_iff.2 hv
      rw [mem_keys_iff_contains] at hvk
      exact hvk
    refine ⟨hlen, hbound, ?_⟩
    intro c hc
    exact hcons c hc (fun z hz => hbound z ((htup c hc).2 z hz))

/-- C1 witness: on `cspPair` the hypotheses hold and `solve` returns the
assignment `A = 1, B = 2`, which is complete and satisfies the constraint. -/
theorem c1_witness :
    (∀ c ∈ cspPair.constraints, c.1 ≠ [] ∧ ∀ z ∈ c.1, z ∈ cspPair.vars) ∧
    ([("A", (1 : Int)), ("B", 2)].length = cspPair.vars.length ∧
      (∀ v ∈ cspPair.vars, (dictGet? [("A", (1 : Int)), ("B", 2)] v).isSome = true) ∧
      (∀ c ∈ cspPair.constraints,
        c.2 (c.1.map (fun z => (dictGet? [("A", (1 : Int)), ("B", 2)] z).getD 0)) = true)) :=
  ⟨by decide,
    c1_solutions_complete_and_satisfying cspPair [("A", 1), ("B", 2)]
      (by decide) rfl⟩

/-- C2 counterexample: on `cspMrv`, the very first selector call that
`solve` performs (empty assignment, graph as built at construction) returns
`B`, although the unassigned variable `A` has a strictly smaller remaining
domain — the returned variable does not minimize remaining domain size. -/
theorem c2_counterexample :
    select_next_variable cspMrv (create_constraint_graph cspMrv.constraints) [] =
      .ok ("B", [("B", ["C", "C"]), ("C", ["B", "B"]), ("A", [])]) ∧
    "A" ∈ unassignedVars cspMrv [] ∧ domLen cspMrv "A" < domLen cspMrv "B" :=
  ⟨rfl, by decide, by decide⟩

/-- C2 (amended): every successful selector call returns an unassigned
variable that maximizes the neighbor-list length over ALL unassigned
variables (not only among minimal-domain ones); among unassigned variables
sharing that maximal neighbor count it has minimal remaining domain size. -/
theorem c2_selector_max_degree (csp : CSP) (n : NbrDict) (a : Assignment)
    (x : String) (n' : NbrDict)
    (h : select_next_variable csp n a = .ok (x, n')) :
    x ∈ unassignedVars csp a ∧
    (∀ y ∈ unassignedVars csp a, (nbrFun n y).length ≤ (nbrFun n x).length) ∧
    (∀ y ∈ unassignedVars csp a, (nbrFun n y).length = (nbrFun n x).length →
      domLen csp x ≤ domLen csp y) := by
  obtain ⟨h1, _, h3, h4⟩ := select_ok_spec csp n a x n' h
  exact ⟨h1, h3, h4⟩

/-- C2 witness: the amended statement evaluated on the `cspMrv` selector call. -/
theorem c2_witness :
    select_next_variable cspMrv (create_constraint_graph cspMrv.constraints) [] =
      .ok ("B", [("B", ["C", "C"]), ("C", ["B", "B"]), ("A", [])]) ∧
    ("B" ∈ unassignedVars cspMrv [] ∧
      (∀ y ∈ unassignedVars cspMrv [],
        (nbrFun (create_constraint_graph cspMrv.constraints) y).length ≤
          (nbrFun (create_constraint_graph cspMrv.constraints) "B").length) ∧
      (∀ y ∈ unassignedVars cspMrv [],
        (nbrFun (create_constraint_graph cspMrv.constraints) y).length =
          (nbrFun (create_constraint_graph cspMrv.constraints) "B").length →
        domLen cspMrv "B" ≤ domLen cspMrv y)) :=
  ⟨rfl, c2_selector_max_degree cspMrv (create_constraint_graph cspMrv.constraints) []
    "B" [("B", ["C", "C"]), ("C", ["B", "B"]), ("A", [])] rfl⟩

/-- C3 counterexample: when the variable is already bound before the call,
the checker does not leave the assignment unchanged — the pre-existing
binding `x = 1` is lost because the final `del` removes the overwritten
entry. -/
theorem c3_counterexample :
    (is_assignment_valid cspFrame "x" 2 [("x", 1)]).2 ≠ [("x", (1 : Int))] := by
  decide

/-- C3 (amended): for every call in which the variable is not yet bound in
the assignment — which holds at every call site the solver reaches — the
assignment observed after `_is_assignment_valid` returns is identical to the
assignment before the call, regardless of the verdict. -/
theorem c3_checker_restores_unbound (csp : CSP) (x : String) (val : Int)
    (a : Assignment) (h : containsKey a x = false) :
    (is_assignment_valid csp x val a).2 = a :=
  is_assignment_valid_restore csp x val a h

/-- C3 witness: the amended statement at a concrete unbound call. -/
theorem c3_witness :
    containsKey [("y", (5 : Int))] "x" = false ∧
    (is_assignment_valid cspFrame "x" 2 [("y", 5)]).2 = [("y", (5 : Int))] :=
  ⟨by decide, c3_checker_restores_unbound cspFrame "x" 2 [("y", 5)] (by decide)⟩

/-- C4: `_is_assignment_valid` returns false exactly when some constraint
whose tuple contains the variable has all tuple variables bound under the
tentative assignment (the given assignment with the variable set to the
value) and its predicate is false on those values; consequently it returns
true whenever every relevant constraint still has an unbound tuple variable
(required co-variables absent). -/
theorem c4_checker_false_iff (csp : CSP) (x : String) (val : Int) (a : Assignment) :
    ((is_assignment_valid csp x val a).1 = false ↔
      ∃ c ∈ csp.constraints, x ∈ c.1 ∧
        (∀ z ∈ c.1, (dictGet? (dictSet a x val) z).isSome = true) ∧
        c.2 (c.1.map (fun z => (dictGet? (dictSet a x val) z).getD 0)) = false) ∧
    ((∀ c ∈ csp.constraints, x ∈ c.1 →
        ∃ z ∈ c.1, dictGet? (dictSet a x val) z = none) →
      (is_assignment_valid csp x val a).1 = true) :=
  ⟨is_assignment_valid_false_iff csp x val a,
    is_assignment_valid_true_of_missing csp x val a⟩

/-- C5: under the specification's data model (non-empty constraint tuples),
every committed assignment reachable at entry to a recursive call satisfies
every constraint whose full tuple it binds; constraints missing a referenced
variable are vacuously satisfied. -/
theorem c5_reachable_consistent (csp : CSP)
    (hne : ∀ c ∈ csp.constraints, c.1 ≠ [])
    (a : Assignment) (hreach : ReachableEntry csp a) :
    Consistent csp a :=
  reachable_consistent csp hne a hreach

/-- C5 witness: on `cspPair`, committing the accepted pair `A = 1` from the
initial empty assignment yields a reachable entry, which is consistent. -/
theorem c5_witness :
    (∀ c ∈ cspPair.constraints, c.1 ≠ []) ∧ Consistent cspPair (dictSet [] "A" 1) :=
  ⟨by decide,
    c5_reachable_consistent cspPair (by decide) (dictSet [] "A" 1)
      (ReachableEntry.step [] "A" 1 ReachableEntry.init rfl (by decide))⟩

/-- C6: for every CSP instance in which every variable has a domain entry,
every constraint ranges over declared variables (the specification's data
model), and at least one variable's domain is empty, `solve` returns the
no-solution indicator `none`, terminating normally — no exception escapes. -/
theorem c6_empty_domain_returns_none (csp : CSP)
    (hvd : ∀ y ∈ csp.vars, containsKey csp.domains y = true)
    (hcv : ∀ c ∈ csp.constraints, ∀ z ∈ c.1, z ∈ csp.vars)
    (hempty : ∃ v ∈ csp.vars, dictGet? csp.domains v = some []) :
    solve csp = .ok none := by
  obtain ⟨v, hv, hvdom⟩ := hempty
  obtain ⟨n', hrec, _⟩ := rb_none csp v hv hvdom hvd
    (fun c hc z hz => hvd z (hcv c hc z hz))
    (csp.vars.length + 1) (create_constraint_graph csp.constraints) []
    (graphBound_create csp) rfl (by simp [keys]) (by simp [keys]) (by omega)
  unfold solve runSolve
  rw [hrec]

/-- C6 witness: `cspEmptyDomain` satisfies the hypotheses and `solve` yields
`none` without an error. -/
theorem c6_witness :
    (∀ y ∈ cspEmptyDomain.vars, containsKey cspEmptyDomain.domains y = true) ∧
    (∀ c ∈ cspEmptyDomain.constraints, ∀ z ∈ c.1, z ∈ cspEmptyDomain.vars) ∧
    (∃ v ∈ cspEmptyDomain.vars, dictGet? cspEmptyDomain.domains v = some []) ∧
    solve cspEmptyDomain = .ok none :=
  ⟨by decide, by decide, ⟨"A", by decide, rfl⟩,
    c6_empty_domain_returns_none cspEmptyDomain (by decide) (by decide)
      ⟨"A", by decide, rfl⟩⟩

/-- C7: for every CSP instance with an empty constraint list, distinct
variables, and a non-empty domain entry for every variable, `solve` succeeds
and the returned complete assignment maps every variable to the first value
of that variable's domain. -/
theorem c7_no_constraints_first_values (csp : CSP)
    (hcs : csp.constraints = [])
    (hnodup : csp.vars.Nodup)
    (hdom : ∀ y ∈ csp.vars, containsKey csp.domains y = true ∧
      (dictGet? csp.domains y).getD [] ≠ []) :
    ∃ sol, solve csp = .ok (some sol) ∧ sol.length = csp.vars.length ∧
      ∀ v ∈ csp.vars, ∀ w ws, dictGet? csp.domains v = some (w :: ws) →
        dictGet? sol v = some w := by
  have hdom' : ∀ y ∈ csp.vars, ∃ w ws, dictGet? csp.domains y = some (w :: ws) := by
    intro y hy
    obtain ⟨h1, h2⟩ := hdom y hy
    simp only [containsKey, Option.isSome_iff_exists] at h1
    obtain ⟨d, hd⟩ := h1
    rw [hd] at h2
    cases d with
    | nil => exact absurd (by simp : (some ([] : List Int)).getD [] = []) h2
    | cons w ws => exact ⟨w, ws, hd⟩
  have hGE : ∀ k, nbrFun (create_constraint_graph csp.constraints) k = [] := by
    intro k
    rw [hcs]
    rfl
  obtain ⟨sol, n', hrec, hlen, hnd, hsub, hfirst⟩ := rb_first csp hcs hnodup hdom'
    (csp.vars.length + 1) (create_constraint_graph csp.constraints) []
    hGE (by simp [keys]) (by simp [keys]) (by simp) (by omega)
  refine ⟨sol, ?_, hlen, ?_⟩
  · unfold solve runSolve
    rw [hrec]
  · intro v hv w ws hw
    have hkl : (keys sol).length = sol.length := List.length_map sol Prod.fst
    have hperm : (keys sol).Perm csp.vars :=
      (List.subperm_of_subset hnd (by intro k hk; exact hsub k hk)).perm_of_length_le
        (by omega)
    have hvk : v ∈ keys sol := hperm.mem_iff.2 hv
    rw [mem_keys_iff_contains] at hvk
    simp only [containsKey, Option.isSome_iff_exists] at hvk
    obtain ⟨w', hw'⟩ := hvk
    obtain ⟨ws', hws'⟩ := hfirst (v, w') (dictGet?_mem sol v w' hw')
    simp only at hws'
    rw [hw] at hws'
    simp only [Option.some.injEq, List.cons.injEq] at hws'
    rw [hw', hws'.1]

/-- C7 witness: on `cspTwoFree` the hypotheses hold, so `solve` returns the
assignment mapping each variable to its first domain value. -/
theorem c7_witness :
    cspTwoFree.constraints = [] ∧ cspTwoFree.vars.Nodup ∧
    (∀ y ∈ cspTwoFree.vars, containsKey cspTwoFree.domains y = true ∧
      (dictGet? cspTwoFree.domains y).getD [] ≠ []) ∧
    (∃ sol, solve cspTwoFree = .ok (some sol) ∧
      sol.length = cspTwoFree.vars.length ∧
      ∀ v ∈ cspTwoFree.vars, ∀ w ws, dictGet? cspTwoFree.domains v = some (w :: ws) →
        dictGet? sol v = some w) :=
  ⟨rfl, by decide, by decide,
    c7_no_constraints_first_values cspTwoFree rfl (by decide) (by decide)⟩

/-- C8 counterexample: solving `cspIsolated` (one variable in no constraint)
grows the `neighbors` defaultdict: the constraint graph built at construction
is empty, but a degree lookup during variable selection inserts an empty
entry for `A`, so the dict after `solve` differs from the one built at
construction — the structure is mutated after construction. -/
theorem c8_counterexample :
    runSolve cspIsolated =
      .ok (some [("A", (1 : Int))], [("A", (1 : Int))], [("A", ([] : List String))]) ∧
    create_constraint_graph cspIsolated.constraints = [] ∧
    [("A", ([] : List String))] ≠ ([] : NbrDict) :=
  ⟨rfl, rfl, by decide⟩

/-- C8 (amended): the neighbors mapping, viewed as the function that a
defaultdict read yields, is never changed by `solve`: reads during variable
selection or value ordering may append fresh empty entries for variables in
no constraint, but every key still yields exactly the list it yielded in the
graph built at construction. -/
theorem c8_graph_reads_unchanged (csp : CSP) (r : Option Assignment)
    (s : Assignment) (n' : NbrDict)
    (h : runSolve csp = .ok (r, s, n')) :
    ∀ k, nbrFun n' k = nbrFun (create_constraint_graph csp.constraints) k :=
  (rb_inv csp (csp.vars.length + 1) (create_constraint_graph csp.constraints) []
    r s n' h).2.2

/-- C8 witness: the amended statement evaluated on the `cspIsolated` run. -/
theorem c8_witness :
    runSolve cspIsolated =
      .ok (some [("A", (1 : Int))], [("A", (1 : Int))], [("A", ([] : List String))]) ∧
    (∀ k, nbrFun [("A", ([] : List String))] k =
      nbrFun (create_constraint_graph cspIsolated.constraints) k) :=
  ⟨rfl, c8_graph_reads_unchanged cspIsolated (some [("A", 1)]) [("A", 1)]
    [("A", [])] rfl⟩

/-- C9 counterexample: `cspUnknownVar` has a constraint whose tuple mentions
the undeclared variable `Z` and whose predicate is constantly false, yet no
configuration error is surfaced at construction or first use: `solve`
returns an ordinary assignment, the unsatisfiable constraint having been
silently skipped. -/
theorem c9_counterexample :
    solve cspUnknownVar = .ok (some [("A", (1 : Int))]) :=
  rfl

/-- C9 (amended): no configuration-error check exists. A constraint whose
tuple references a variable outside the variable list is not rejected;
whenever it is the only constraint, every consistency check performed on an
assignment over declared variables treats it as passing, so the search
proceeds as if the constraint were satisfiable. -/
theorem c9_unknown_variable_skipped (csp : CSP)
    (c : List String × (List Int → Bool)) (z : String)
    (hcs : csp.constraints = [c]) (hz : z ∈ c.1) (hzv : z ∉ csp.vars)
    (x : String) (val : Int) (a : Assignment)
    (hx : x ∈ csp.vars) (hsub : ∀ k ∈ keys a, k ∈ csp.vars) :
    (is_assignment_valid csp x val a).1 = true := by
  apply is_assignment_valid_true_of_missing
  intro c' hc' _
  rw [hcs] at hc'
  have hcc : c' = c := by simpa using hc'
  subst hcc
  refine ⟨z, hz, ?_⟩
  cases hzx : dictGet? (dictSet a x val) z with
  | none => rfl
  | some w =>
    exfalso
    have hzk : z ∈ keys (dictSet a x val) := by
      rw [mem_keys_iff_contains]
      simp [containsKey, hzx]
    rcases keys_dictSet a x val z hzk with hzk | hzk
    · exact hzv (hzk ▸ hx)
    · exact hzv (hsub z hzk)

/-- C9 witness: the amended statement at a concrete consistency check of
`cspUnknownVar`. -/
theorem c9_witness :
    cspUnknownVar.constraints = [(["Z"], fun _ => false)] ∧
    "Z" ∈ ["Z"] ∧ "Z" ∉ cspUnknownVar.vars ∧ "A" ∈ cspUnknownVar.vars ∧
    (is_assignment_valid cspUnknownVar "A" 1 []).1 = true :=
  ⟨rfl, by decide, by decide, by decide,
    c9_unknown_variable_skipped cspUnknownVar (["Z"], fun _ => false) "Z" rfl
      (by decide) (by decide) "A" 1 [] (by decide) (by simp [keys])⟩

/-- C10: if the variable list is empty, `solve` returns the empty assignment
as a successful solution, not the no-solution indicator — even when the
constraint list is non-empty, because the completeness test succeeds before
any constraint is evaluated. -/
theorem c10_empty_variables_solved (domains : Dict (List Int))
    (cs : List (List String × (List Int → Bool))) (hcs : cs ≠ []) :
    solve ⟨[], domains, cs⟩ = .ok (some []) := rfl

/-- C10 witness: with one variable-free instance carrying a non-empty
constraint list, `solve` returns the empty assignment. -/
theorem c10_witness :
    ([(["A"], fun _ => false)] : List (List String × (List Int → Bool))) ≠ [] ∧
    solve ⟨[], [("A", [1])], [(["A"], fun _ => false)]⟩ = .ok (some []) :=
  ⟨by simp, c10_empty_variables_solved [("A", [1])] [(["A"], fun _ => false)] (by simp)⟩

/-- C4 witness: both parts of the characterization evaluated at a concrete
check on `cspUnknownVar`, whose only relevant constraint set is empty for
the tested variable, so the check passes. -/
theorem c4_witness :
    (is_assignment_valid cspUnknownVar "A" 1 []).1 = true :=
  (c4_checker_false_iff cspUnknownVar "A" 1 []).2 (by decide)
